import Mathlib

/-!
Verification of the issue-hierarchy traversal and ancestry-labeling engine
of `sidekick/clients/jira.py`, as a shallow embedding.

The repository layer is modelled by a `World`: the finite list of issues the
remote tracker holds.  `getIssue` models `GET /issue/{key}` (an issue found by
key), `childrenQueryIssues` models the JQL query `parent = KEY [AND project =
P] [AND issuetype = "T"]` with its `max_results=100` cap, and `updateIssueLabels`
models `PUT /issue/{key}` with a `labels` field update.  A JIRA issue belongs
to project `P` exactly when its key starts with `P-`, which is also the check
the source applies to linked keys.
-/

/-- One entry of an issue's `issuelinks` field: the link type's `name`,
`inward` and `outward` texts and the key of the issue at the other end
(`inwardIssue` or `outwardIssue`; `none` when neither is present). -/
structure IssueLink where
  typeName : String
  inward : String
  outward : String
  target : Option String
deriving DecidableEq, Repr

/-- A work item as fetched from the tracker: the fields of the source's
default field list that the traversal and labeling engines consume. -/
structure Issue where
  key : String
  summary : String
  issuetype : String
  labels : List String
  parent : Option String
  links : List IssueLink
deriving DecidableEq, Repr

/-- The remote tracker's state: all issues it holds. -/
abbrev World := List Issue

/-- One element yielded by `get_issue_hierarchy`: the issue, its depth, its
relationship (`"root"`, `"child"` or `"linked"`) and the key it was reached
from. -/
structure HierNode where
  issue : Issue
  depth : Nat
  relationship : String
  parentKey : Option String
deriving DecidableEq, Repr

/-- `get_issue(key)`: the issue of the world with that key (`none` models the
404 `ValueError`). -/
def getIssue (w : World) (key : String) : Option Issue :=
  w.find? (fun i => i.key == key)

/-- Does `needle` occur as a contiguous run inside the second list? -/
def listHasRun (needle : List Char) : List Char → Bool
  | [] => needle.isEmpty
  | c :: rest => needle.isPrefixOf (c :: rest) || listHasRun needle rest

/-- The string lowercased character by character (basic latin, like Python's
`.lower()` on the ASCII names involved).  Written over the character list so
that it computes by kernel reduction. -/
def lowerStr (s : String) : String :=
  String.mk (s.toList.map Char.toLower)

/-- Does the string contain `"clone"` once lowercased?  Models Python's
`"clone" in s.lower()`. -/
def containsClone (s : String) : Bool :=
  listHasRun "clone".toList (lowerStr s).toList

/-- The source's clone-link test: the link type's name, inward text or
outward text contains `"clone"` case-insensitively. -/
def isCloneLink (l : IssueLink) : Bool :=
  containsClone l.typeName || containsClone l.inward || containsClone l.outward

/-- `linked_key.startswith(project + "-")` when a project filter is given. -/
def projOk (proj : Option String) (key : String) : Bool :=
  match proj with
  | none => true
  | some p => (p ++ "-").isPrefixOf key

/-- The linked descendant candidates collected from an issue's link list, in
link order: clone links are skipped, a link with no target issue is skipped,
and a surviving target key is kept when it is not yet visited and passes the
project filter. -/
def linkedCandidates (proj : Option String) (vis : List String) :
    List IssueLink → List String
  | [] => []
  | l :: ls =>
    let rest := linkedCandidates proj vis ls
    if isCloneLink l then rest
    else
      match l.target with
      | none => rest
      | some k => if !vis.contains k && projOk proj k then k :: rest else rest

/-- The JQL child query `parent = KEY [AND project = P] [AND issuetype = "T"]`
with `max_results = 100`. -/
def childrenQueryIssues (w : World) (proj ty : Option String) (key : String) :
    List Issue :=
  (w.filter (fun c =>
    c.parent == some key &&
    (match proj with | none => true | some p => (p ++ "-").isPrefixOf c.key) &&
    (match ty with | none => true | some t => c.issuetype == t))).take 100

/-- The child descendant candidates: results of the child query whose key is
non-empty (Python truthiness of `child_key`) and not yet visited. -/
def childCandidates (w : World) (proj ty : Option String) (key : String)
    (vis : List String) : List (String × String) :=
  (childrenQueryIssues w proj ty key).filterMap (fun c =>
    if c.key != "" && !vis.contains c.key then some (c.key, "child") else none)

/-- `should_yield`: with an issue-type filter set, the node is reported only
when its issue-type name equals the filter. -/
def shouldYield (ty : Option String) (i : Issue) : Bool :=
  match ty with
  | none => true
  | some t => i.issuetype == t

/-- All descendant candidates of an expanded issue, linked ones first, each
tagged with the relationship it will carry. -/
def descendantsOf (w : World) (proj ty : Option String) (key : String)
    (issue : Issue) (vis : List String) : List (String × String) :=
  (linkedCandidates proj vis issue.links).map (fun k => (k, "linked")) ++
    childCandidates w proj ty key vis

/-- Sequential processing of a descendant list: each entry is handed to
`step` (the recursive visit) with the visited set the previous entries
produced, and the yielded chunks are concatenated in order. -/
def traverseSeq (step : String → String → List String → List HierNode × List String) :
    List (String × String) → List String → List HierNode × List String
  | [], vis => ([], vis)
  | d :: ds, vis =>
    match step d.1 d.2 vis with
    | (ys, vis1) =>
      match traverseSeq step ds vis1 with
      | (ys2, vis2) => (ys ++ ys2, vis2)

/-- The recursive `traverse` closure of `get_issue_hierarchy`.  The fuel
argument only mirrors the source's own `depth > max_depth` bound: every call
recurses with `depth + 1` and fuel less one, and the top-level call passes
`max_depth + 1` fuel, so fuel runs out (returning the same empty result)
exactly when `depth > max_depth` already holds.  Returns the yielded nodes in
order together with the visited set. -/
def traverseGo (w : World) (proj ty : Option String) (maxD : Nat) :
    Nat → String → Nat → String → Option String → List String →
    List HierNode × List String
  | 0, _, _, _, _, vis => ([], vis)
  | Nat.succ fuel, key, depth, rel, parent, vis =>
    if maxD < depth || vis.contains key then ([], vis)
    else
      let vis1 := key :: vis
      match getIssue w key with
      | none => ([], vis1)
      | some issue =>
        let yielded : List HierNode :=
          if shouldYield ty issue then [⟨issue, depth, rel, parent⟩] else []
        match traverseSeq
            (fun k r v => traverseGo w proj ty maxD fuel k (depth + 1) r (some key) v)
            (descendantsOf w proj ty key issue vis1) vis1 with
        | (rest, vis2) => (yielded ++ rest, vis2)

/-- `get_issue_hierarchy(root, project, issue_type, max_depth)`: the yielded
sequence of hierarchy nodes. -/
def getIssueHierarchy (w : World) (proj ty : Option String) (maxD : Nat)
    (root : String) : List HierNode :=
  (traverseGo w proj ty maxD (maxD + 1) root 0 "root" none []).1

/-- The same traversal with the reporting filter stripped: every traversed
node whose issue was found is yielded, while the child query keeps the
issue-type narrowing.  This is the full traversal sequence against which the
reporting filter is compared. -/
def traverseAllGo (w : World) (proj ty : Option String) (maxD : Nat) :
    Nat → String → Nat → String → Option String → List String →
    List HierNode × List String
  | 0, _, _, _, _, vis => ([], vis)
  | Nat.succ fuel, key, depth, rel, parent, vis =>
    if maxD < depth || vis.contains key then ([], vis)
    else
      let vis1 := key :: vis
      match getIssue w key with
      | none => ([], vis1)
      | some issue =>
        match traverseSeq
            (fun k r v => traverseAllGo w proj ty maxD fuel k (depth + 1) r (some key) v)
            (descendantsOf w proj ty key issue vis1) vis1 with
        | (rest, vis2) => (⟨issue, depth, rel, parent⟩ :: rest, vis2)

/-- The full traversal sequence of `get_issue_hierarchy`'s walk: every
expanded node, whether or not the issue-type filter reports it. -/
def getTraversalAll (w : World) (proj ty : Option String) (maxD : Nat)
    (root : String) : List HierNode :=
  (traverseAllGo w proj ty maxD (maxD + 1) root 0 "root" none []).1

/-! ## The roadmap-prefix extractor -/

/-- The chars matched by the regex piece `(?:\.\d+)*`: greedily, a dot
followed by at least one digit, repeated.  The fuel is an upper bound on the
input length; each step consumes at least two characters. -/
def dotGroups : Nat → List Char → List Char
  | 0, _ => []
  | _, [] => []
  | fuel + 1, c :: rest =>
    if c = '.' then
      let d := rest.takeWhile Char.isDigit
      if d.isEmpty then []
      else ('.' :: d) ++ dotGroups fuel (rest.drop d.length)
    else []

/-- `_extract_prefix`: the first capture group of
`^([A-Z]\d+(?:\.\d+)*)\s*\.?\s*` against the summary, or `none` when the
summary does not start with an uppercase letter followed by digits. -/
def extractRoadmapTag (s : String) : Option String :=
  match s.toList with
  | [] => none
  | c :: rest =>
    if 'A' ≤ c ∧ c ≤ 'Z' then
      let d := rest.takeWhile Char.isDigit
      if d.isEmpty then none
      else some (String.mk (c :: d ++ dotGroups rest.length (rest.drop d.length)))
    else none

/-! ## The ancestry-label engine -/

/-- `dict.get` over the prefix/parent maps, last assignment winning (the maps
are association lists and `processItems` prepends new entries). -/
def lookupS (m : List (String × String)) (k : String) : Option String :=
  (m.find? (fun e => e.1 == k)).map (·.2)

/-- `dict.get` over the computed-labels map. -/
def lookupL (m : List (String × List String)) (k : String) : Option (List String) :=
  (m.find? (fun e => e.1 == k)).map (·.2)

/-- The `while current_key:` loop of `_build_ancestry_labels`, producing the
collected lowercased prefixes in self-to-root order (the source reverses them
afterwards).  A key equal to `""` is falsy and ends the walk; a key with no
parent entry ends the walk after contributing its own prefix.  The fuel only
truncates walks longer than any parent chain the caller can build (on which
the source itself would not terminate). -/
def collectAncestry (pm parm : List (String × String)) :
    Nat → String → List String
  | 0, _ => []
  | fuel + 1, cur =>
    if cur = "" then []
    else
      let head := match lookupS pm cur with
        | some p => [lowerStr p]
        | none => []
      match lookupS parm cur with
      | some nxt => head ++ collectAncestry pm parm fuel nxt
      | none => head

/-- `_build_ancestry_labels`: depth ≥ 4 inherits the parent's already-computed
labels when the parent key is truthy and present in the labels map; otherwise
the lowercased prefix chain is collected root-to-self and compressed to
`[root, second-to-last, last]` when longer than three entries. -/
def buildAncestryLabels (pm parm : List (String × String))
    (lm : List (String × List String)) (fuel : Nat) (key : String)
    (depth : Nat) : List String :=
  let inherited : Option (List String) :=
    if 4 ≤ depth then
      match lookupS parm key with
      | some p => if p = "" then none else lookupL lm p
      | none => none
    else none
  match inherited with
  | some ls => ls
  | none =>
    let ancestry := (collectAncestry pm parm fuel key).reverse
    if 3 < ancestry.length then
      [ancestry.getD 0 "", ancestry.getD (ancestry.length - 2) "",
        ancestry.getD (ancestry.length - 1) ""]
    else ancestry

/-! ## The repository's label writes -/

/-- A `PUT /issue/{key}` with a `labels` update, recorded as (key, new label
list). -/
abbrev WriteOp := String × List String

/-- `update_issue(key, fields with labels)`: the issue with that key gets the
new label list. -/
def updateIssueLabels (w : World) (key : String) (ls : List String) : World :=
  w.map (fun i => if i.key == key then { i with labels := ls } else i)

/-- `add_label`: re-fetch the issue (propagating the not-found error), and
append the label only when it is not already present.  Returns the new world
and the write operations performed. -/
def addLabel (w : World) (key label : String) : Except String (World × List WriteOp) :=
  match getIssue w key with
  | none => .error ("Resource not found: " ++ key)
  | some i =>
    if i.labels.contains label then .ok (w, [])
    else .ok (updateIssueLabels w key (i.labels ++ [label]), [(key, i.labels ++ [label])])

/-! ## The labeling orchestrator -/

/-- The run statistics of `label_roadmap_hierarchy`. -/
structure RunStats where
  processed : Nat
  labeled : Nat
  skipped : Nat
  errors : Nat
deriving DecidableEq, Repr

/-- The per-item label loop of the live branch: each missing label is added
independently, one failure counting an error without blocking the rest. -/
def applyNewLabels (w : World) (key : String) :
    List String → World × List WriteOp × Nat
  | [] => (w, [], 0)
  | l :: ls =>
    match addLabel w key l with
    | .error _ =>
      match applyNewLabels w key ls with
      | (w2, ws, e) => (w2, ws, e + 1)
    | .ok (w1, ws1) =>
      match applyNewLabels w1 key ls with
      | (w2, ws, e) => (w2, ws1 ++ ws, e)

/-- `if limit and stats['labeled'] >= limit: break` — a `limit` of 0 is falsy
and never stops the run. -/
def limitReached (lim : Option Nat) (labeled : Nat) : Bool :=
  match lim with
  | none => false
  | some n => decide (n ≠ 0) && decide (n ≤ labeled)

/-- `if parent_key: parent_map[issue_key] = parent_key` — an empty parent key
is falsy and stores nothing. -/
def updParentMap (parm : List (String × String)) (key : String)
    (pk : Option String) : List (String × String) :=
  match pk with
  | some p => if p = "" then parm else (key, p) :: parm
  | none => parm

/-- Record the item's roadmap prefix when it exists and belongs to the root's
family; otherwise the maps are untouched and the item inherits. -/
def updTagMap (pm : List (String × String)) (family : Char)
    (key summary : String) : List (String × String) :=
  match extractRoadmapTag summary with
  | some pf => if pf.toList.headD ' ' = family then (key, pf) :: pm else pm
  | none => pm

/-- `new_labels = set(ancestry_labels) - set(current_labels)`, as a
duplicate-free list. -/
def newLabelsFor (ancestry current : List String) : List String :=
  ancestry.eraseDups.filter (fun l => !current.contains l)

/-- The streamed per-item loop of `label_roadmap_hierarchy`: maintain the
parent/prefix/labels maps, diff the computed ancestry labels against the
item's current labels, apply (or, in dry-run, skip) the writes, update the
counters, and stop early once the limit is reached.  An item with no new
labels is passed over with `continue`, touching no counter — exactly as the
source does. -/
def processItems (dryRun : Bool) (lim : Option Nat) (family : Char) :
    List HierNode → List (String × String) → List (String × String) →
    List (String × List String) → RunStats → World → List WriteOp →
    RunStats × World × List WriteOp
  | [], _, _, _, stats, w, writes => (stats, w, writes)
  | item :: rest, pm, parm, lm, stats, w, writes =>
    let key := item.issue.key
    let parm1 := updParentMap parm key item.parentKey
    let pm1 := updTagMap pm family key item.issue.summary
    let ancestry := buildAncestryLabels pm1 parm1 lm (parm1.length + 1) key item.depth
    let lm1 := (key, ancestry) :: lm
    let newLabels := newLabelsFor ancestry item.issue.labels
    if newLabels.isEmpty then
      processItems dryRun lim family rest pm1 parm1 lm1 stats w writes
    else
      if dryRun then
        let stats1 := { stats with
          processed := stats.processed + 1, labeled := stats.labeled + 1 }
        if limitReached lim stats1.labeled then (stats1, w, writes)
        else processItems dryRun lim family rest pm1 parm1 lm1 stats1 w writes
      else
        match applyNewLabels w key newLabels with
        | (w1, ws1, errs) =>
          let stats1 := { stats with
            processed := stats.processed + 1, labeled := stats.labeled + 1,
            errors := stats.errors + errs }
          if limitReached lim stats1.labeled then (stats1, w1, writes ++ ws1)
          else processItems dryRun lim family rest pm1 parm1 lm1 stats1 w1 (writes ++ ws1)

/-- `label_roadmap_hierarchy(root, project, dry_run, limit)`: validate the
root's roadmap prefix (failing fast with the source's message when it is
missing), then stream the hierarchy once, returning the final counters and
the repository writes performed. -/
def labelRoadmapHierarchy (w : World) (root : String) (proj : Option String)
    (dryRun : Bool) (lim : Option Nat) :
    Except String (RunStats × List WriteOp) :=
  match getIssue w root with
  | none => .error ("Resource not found: " ++ root)
  | some rootIssue =>
    match extractRoadmapTag rootIssue.summary with
    | none =>
      .error ("Root issue " ++ root ++ " has no valid prefix in summary: '" ++
        rootIssue.summary ++ "'")
    | some rootTag =>
      let family := rootTag.toList.headD ' '
      let items := getIssueHierarchy w proj none 10 root
      match processItems dryRun lim family items [] [] [] ⟨0, 0, 0, 0⟩ w [] with
      | (stats, _, writes) => .ok (stats, writes)

/-- The writes a `label_roadmap_hierarchy` run performed (none when it raised). -/
def writesOf (r : Except String (RunStats × List WriteOp)) : List WriteOp :=
  match r with
  | .ok (_, ws) => ws
  | .error _ => []

/-! ## Basic facts about the repository model -/

theorem getIssue_key {w : World} {k : String} {i : Issue}
    (h : getIssue w k = some i) : i.key = k := by
  have := List.find?_some h
  simpa using this

theorem getIssue_mem {w : World} {k : String} {i : Issue}
    (h : getIssue w k = some i) : i ∈ w :=
  List.mem_of_find?_eq_some h

theorem getIssue_isSome {w : World} {k : String} {i : Issue}
    (h : getIssue w k = some i) : (getIssue w k).isSome := by
  simp [h]

/-! ## Unfolding lemmas for the traversal -/

theorem traverseSeq_nil (step : String → String → List String → List HierNode × List String)
    (vis : List String) : traverseSeq step [] vis = ([], vis) := rfl

theorem traverseSeq_cons (step : String → String → List String → List HierNode × List String)
    (d : String × String) (ds : List (String × String)) (vis : List String) :
    traverseSeq step (d :: ds) vis =
      ((step d.1 d.2 vis).1 ++ (traverseSeq step ds (step d.1 d.2 vis).2).1,
       (traverseSeq step ds (step d.1 d.2 vis).2).2) := by
  rcases h1 : step d.1 d.2 vis with ⟨ys, vis1⟩
  rcases h2 : traverseSeq step ds vis1 with ⟨ys2, vis2⟩
  simp [traverseSeq, h1, h2]

theorem traverseGo_zero (w : World) (proj ty : Option String) (maxD : Nat)
    (key : String) (depth : Nat) (rel : String) (parent : Option String)
    (vis : List String) :
    traverseGo w proj ty maxD 0 key depth rel parent vis = ([], vis) := rfl

theorem traverseGo_stop (w : World) (proj ty : Option String) (maxD fuel : Nat)
    (key : String) (depth : Nat) (rel : String) (parent : Option String)
    (vis : List String) (h : maxD < depth ∨ key ∈ vis) :
    traverseGo w proj ty maxD (fuel + 1) key depth rel parent vis = ([], vis) := by
  rcases h with h | h <;> simp [traverseGo, h]

theorem traverseGo_notFound (w : World) (proj ty : Option String) (maxD fuel : Nat)
    (key : String) (depth : Nat) (rel : String) (parent : Option String)
    (vis : List String) (hd : ¬ maxD < depth) (hv : key ∉ vis)
    (hi : getIssue w key = none) :
    traverseGo w proj ty maxD (fuel + 1) key depth rel parent vis = ([], key :: vis) := by
  simp [traverseGo, hd, hv, hi]

theorem traverseGo_found (w : World) (proj ty : Option String) (maxD fuel : Nat)
    (key : String) (depth : Nat) (rel : String) (parent : Option String)
    (vis : List String) (issue : Issue) (hd : ¬ maxD < depth) (hv : key ∉ vis)
    (hi : getIssue w key = some issue) :
    traverseGo w proj ty maxD (fuel + 1) key depth rel parent vis =
      ((if shouldYield ty issue then [HierNode.mk issue depth rel parent] else []) ++
        (traverseSeq (fun k r v => traverseGo w proj ty maxD fuel k (depth + 1) r (some key) v)
          (descendantsOf w proj ty key issue (key :: vis)) (key :: vis)).1,
       (traverseSeq (fun k r v => traverseGo w proj ty maxD fuel k (depth + 1) r (some key) v)
          (descendantsOf w proj ty key issue (key :: vis)) (key :: vis)).2) := by
  rcases hs : traverseSeq
      (fun k r v => traverseGo w proj ty maxD fuel k (depth + 1) r (some key) v)
      (descendantsOf w proj ty key issue (key :: vis)) (key :: vis) with ⟨rest, vis2⟩
  simp [traverseGo, hd, hv, hi, hs]

theorem traverseAllGo_zero (w : World) (proj ty : Option String) (maxD : Nat)
    (key : String) (depth : Nat) (rel : String) (parent : Option String)
    (vis : List String) :
    traverseAllGo w proj ty maxD 0 key depth rel parent vis = ([], vis) := rfl

theorem traverseAllGo_stop (w : World) (proj ty : Option String) (maxD fuel : Nat)
    (key : String) (depth : Nat) (rel : String) (parent : Option String)
    (vis : List String) (h : maxD < depth ∨ key ∈ vis) :
    traverseAllGo w proj ty maxD (fuel + 1) key depth rel parent vis = ([], vis) := by
  rcases h with h | h <;> simp [traverseAllGo, h]

theorem traverseAllGo_notFound (w : World) (proj ty : Option String) (maxD fuel : Nat)
    (key : String) (depth : Nat) (rel : String) (parent : Option String)
    (vis : List String) (hd : ¬ maxD < depth) (hv : key ∉ vis)
    (hi : getIssue w key = none) :
    traverseAllGo w proj ty maxD (fuel + 1) key depth rel parent vis = ([], key :: vis) := by
  simp [traverseAllGo, hd, hv, hi]

theorem traverseAllGo_found (w : World) (proj ty : Option String) (maxD fuel : Nat)
    (key : String) (depth : Nat) (rel : String) (parent : Option String)
    (vis : List String) (issue : Issue) (hd : ¬ maxD < depth) (hv : key ∉ vis)
    (hi : getIssue w key = some issue) :
    traverseAllGo w proj ty maxD (fuel + 1) key depth rel parent vis =
      (HierNode.mk issue depth rel parent ::
        (traverseSeq (fun k r v => traverseAllGo w proj ty maxD fuel k (depth + 1) r (some key) v)
          (descendantsOf w proj ty key issue (key :: vis)) (key :: vis)).1,
       (traverseSeq (fun k r v => traverseAllGo w proj ty maxD fuel k (depth + 1) r (some key) v)
          (descendantsOf w proj ty key issue (key :: vis)) (key :: vis)).2) := by
  rcases hs : traverseSeq
      (fun k r v => traverseAllGo w proj ty maxD fuel k (depth + 1) r (some key) v)
      (descendantsOf w proj ty key issue (key :: vis)) (key :: vis) with ⟨rest, vis2⟩
  simp [traverseAllGo, hd, hv, hi, hs]

/-! ## Descendant candidate lemmas -/

theorem mem_linkedCandidates {proj : Option String} {vis : List String}
    {links : List IssueLink} {k : String} (h : k ∈ linkedCandidates proj vis links) :
    ∃ l ∈ links, isCloneLink l = false ∧ l.target = some k ∧ k ∉ vis ∧
      projOk proj k = true := by
  induction links with
  | nil => simp [linkedCandidates] at h
  | cons l ls ih =>
    by_cases hc : isCloneLink l
    · simp only [linkedCandidates, hc, if_pos] at h
      obtain ⟨l', hl', hrest⟩ := ih h
      exact ⟨l', List.mem_cons_of_mem _ hl', hrest⟩
    · rcases ht : l.target with _ | tk
      · simp only [linkedCandidates, hc, Bool.false_eq_true, if_false, ht] at h
        obtain ⟨l', hl', hrest⟩ := ih h
        exact ⟨l', List.mem_cons_of_mem _ hl', hrest⟩
      · have hc' : isCloneLink l = false := by simpa using hc
        simp only [linkedCandidates, hc', Bool.false_eq_true, if_false, ht,
          List.elem_eq_mem, Bool.and_eq_true, Bool.not_eq_eq_eq_not, Bool.not_true,
          decide_eq_false_iff_not] at h
        split at h
        · next hin =>
          rcases List.mem_cons.mp h with rfl | h
          · obtain ⟨h1, h2⟩ := hin
            exact ⟨l, List.mem_cons_self _ _, hc', ht, h1, h2⟩
          · obtain ⟨l', hl', hrest⟩ := ih h
            exact ⟨l', List.mem_cons_of_mem _ hl', hrest⟩
        · obtain ⟨l', hl', hrest⟩ := ih h
          exact ⟨l', List.mem_cons_of_mem _ hl', hrest⟩

theorem linkedCandidates_complete {proj : Option String} {vis : List String}
    {links : List IssueLink} {l : IssueLink} {k : String} (hl : l ∈ links)
    (hc : isCloneLink l = false) (ht : l.target = some k)
    (hp : projOk proj k = true) :
    k ∈ vis ∨ k ∈ linkedCandidates proj vis links := by
  induction links with
  | nil => simp at hl
  | cons l0 ls ih =>
    rcases List.mem_cons.mp hl with rfl | hl'
    · by_cases hv : k ∈ vis
      · exact Or.inl hv
      · refine Or.inr ?_
        simp only [linkedCandidates, hc, Bool.false_eq_true, if_false, ht]
        simp [hv, hp]
    · rcases ih hl' with hv | hm
      · exact Or.inl hv
      · refine Or.inr ?_
        by_cases hc0 : isCloneLink l0
        · simpa [linkedCandidates, hc0] using hm
        · have hc0' : isCloneLink l0 = false := by simpa using hc0
          rcases ht0 : l0.target with _ | tk0
          · simpa [linkedCandidates, hc0', ht0] using hm
          · simp only [linkedCandidates, hc0', Bool.false_eq_true, if_false, ht0]
            split
            · exact List.mem_cons_of_mem _ hm
            · exact hm

theorem mem_childCandidates {w : World} {proj ty : Option String} {key : String}
    {vis : List String} {e : String × String}
    (h : e ∈ childCandidates w proj ty key vis) :
    e.2 = "child" ∧ e.1 ≠ "" ∧ e.1 ∉ vis ∧
      ∃ c ∈ childrenQueryIssues w proj ty key, c.key = e.1 := by
  obtain ⟨c, hc, he⟩ := List.mem_filterMap.mp h
  split at he
  · next hcond =>
    have hcond' : ¬ c.key = "" ∧ c.key ∉ vis := by simpa using hcond
    cases he
    exact ⟨rfl, hcond'.1, hcond'.2, c, hc, rfl⟩
  · cases he

theorem childCandidates_complete {w : World} {proj ty : Option String}
    {key : String} {vis : List String} {c : Issue}
    (hc : c ∈ childrenQueryIssues w proj ty key) (hk : c.key ≠ "") :
    c.key ∈ vis ∨ (c.key, "child") ∈ childCandidates w proj ty key vis := by
  by_cases hv : c.key ∈ vis
  · exact Or.inl hv
  · refine Or.inr (List.mem_filterMap.mpr ⟨c, hc, ?_⟩)
    have hcond : (c.key != "" && !vis.contains c.key) = true := by simp [hk, hv]
    rw [if_pos hcond]

theorem mem_descendantsOf {w : World} {proj ty : Option String} {key : String}
    {issue : Issue} {vis : List String} {e : String × String}
    (h : e ∈ descendantsOf w proj ty key issue vis) :
    (e.2 = "linked" ∧ e.1 ∈ linkedCandidates proj vis issue.links) ∨
      e ∈ childCandidates w proj ty key vis := by
  rcases List.mem_append.mp h with h | h
  · obtain ⟨k, hk, he⟩ := List.mem_map.mp h
    cases he
    exact Or.inl ⟨rfl, hk⟩
  · exact Or.inr h

theorem descendantsOf_rel {w : World} {proj ty : Option String} {key : String}
    {issue : Issue} {vis : List String} {e : String × String}
    (h : e ∈ descendantsOf w proj ty key issue vis) :
    e.2 = "linked" ∨ e.2 = "child" := by
  rcases mem_descendantsOf h with ⟨h1, _⟩ | h1
  · exact Or.inl h1
  · exact Or.inr (mem_childCandidates h1).1

theorem descendantsOf_not_visited {w : World} {proj ty : Option String}
    {key : String} {issue : Issue} {vis : List String} {e : String × String}
    (h : e ∈ descendantsOf w proj ty key issue vis) : e.1 ∉ vis := by
  rcases mem_descendantsOf h with ⟨_, h1⟩ | h1
  · exact (mem_linkedCandidates h1).choose_spec.2.2.2.1
  · exact (mem_childCandidates h1).2.2.1

/-! ## Visited-set monotonicity and yielded-key uniqueness -/

theorem traverseSeq_vis_mono
    (step : String → String → List String → List HierNode × List String)
    (hstep : ∀ k r v, v ⊆ (step k r v).2) :
    ∀ (ds : List (String × String)) (vis : List String),
      vis ⊆ (traverseSeq step ds vis).2 := by
  intro ds
  induction ds with
  | nil => intro vis; simp [traverseSeq_nil]
  | cons d ds ih =>
    intro vis
    rw [traverseSeq_cons]
    exact fun x hx => ih _ (hstep d.1 d.2 vis hx)

theorem traverseGo_vis_mono (w : World) (proj ty : Option String) (maxD : Nat) :
    ∀ (fuel : Nat) (key : String) (depth : Nat) (rel : String)
      (parent : Option String) (vis : List String),
      vis ⊆ (traverseGo w proj ty maxD fuel key depth rel parent vis).2 := by
  intro fuel
  induction fuel with
  | zero => intro key depth rel parent vis; simp [traverseGo_zero]
  | succ f ih =>
    intro key depth rel parent vis
    by_cases hstop : maxD < depth ∨ key ∈ vis
    · rw [traverseGo_stop w proj ty maxD f key depth rel parent vis hstop]
      exact fun x hx => hx
    · have hstop1 : ¬ maxD < depth := fun h => hstop (Or.inl h)
      have hstop2 : key ∉ vis := fun h => hstop (Or.inr h)
      rcases hi : getIssue w key with _ | issue
      · rw [traverseGo_notFound w proj ty maxD f key depth rel parent vis
          hstop1 hstop2 hi]
        exact List.subset_cons_of_subset _ (fun x hx => hx)
      · rw [traverseGo_found w proj ty maxD f key depth rel parent vis issue
          hstop1 hstop2 hi]
        exact fun x hx =>
          traverseSeq_vis_mono _ (fun k r v => ih k (depth + 1) r (some key) v) _ _
            (List.mem_cons_of_mem _ hx)

theorem traverseAllGo_vis_mono (w : World) (proj ty : Option String) (maxD : Nat) :
    ∀ (fuel : Nat) (key : String) (depth : Nat) (rel : String)
      (parent : Option String) (vis : List String),
      vis ⊆ (traverseAllGo w proj ty maxD fuel key depth rel parent vis).2 := by
  intro fuel
  induction fuel with
  | zero => intro key depth rel parent vis; simp [traverseAllGo_zero]
  | succ f ih =>
    intro key depth rel parent vis
    by_cases hstop : maxD < depth ∨ key ∈ vis
    · rw [traverseAllGo_stop w proj ty maxD f key depth rel parent vis hstop]
      exact fun x hx => hx
    · have hstop1 : ¬ maxD < depth := fun h => hstop (Or.inl h)
      have hstop2 : key ∉ vis := fun h => hstop (Or.inr h)
      rcases hi : getIssue w key with _ | issue
      · rw [traverseAllGo_notFound w proj ty maxD f key depth rel parent vis
          hstop1 hstop2 hi]
        exact List.subset_cons_of_subset _ (fun x hx => hx)
      · rw [traverseAllGo_found w proj ty maxD f key depth rel parent vis issue
          hstop1 hstop2 hi]
        exact fun x hx =>
          traverseSeq_vis_mono _ (fun k r v => ih k (depth + 1) r (some key) v) _ _
            (List.mem_cons_of_mem _ hx)

theorem traverseSeq_keys
    (step : String → String → List String → List HierNode × List String)
    (hmono : ∀ k r v, v ⊆ (step k r v).2)
    (hkeys : ∀ k r v, (((step k r v).1.map (fun n => n.issue.key)).Nodup) ∧
      ∀ x ∈ (step k r v).1.map (fun n => n.issue.key), x ∉ v ∧ x ∈ (step k r v).2) :
    ∀ (ds : List (String × String)) (vis : List String),
      (((traverseSeq step ds vis).1.map (fun n => n.issue.key)).Nodup) ∧
      ∀ x ∈ (traverseSeq step ds vis).1.map (fun n => n.issue.key),
        x ∉ vis ∧ x ∈ (traverseSeq step ds vis).2 := by
  intro ds
  induction ds with
  | nil => intro vis; simp [traverseSeq_nil]
  | cons d ds ih =>
    intro vis
    rw [traverseSeq_cons]
    simp only [List.map_append, List.mem_append]
    have h1 := hkeys d.1 d.2 vis
    have h2 := ih (step d.1 d.2 vis).2
    constructor
    · refine List.Nodup.append h1.1 h2.1 ?_
      intro x hx1 hx2
      exact (h2.2 x hx2).1 ((h1.2 x hx1).2)
    · intro x hx
      rcases hx with hx | hx
      · refine ⟨(h1.2 x hx).1, ?_⟩
        exact traverseSeq_vis_mono step hmono ds _ ((h1.2 x hx).2)
      · exact ⟨fun hv => (h2.2 x hx).1 (hmono d.1 d.2 vis hv), (h2.2 x hx).2⟩

theorem traverseGo_keys (w : World) (proj ty : Option String) (maxD : Nat) :
    ∀ (fuel : Nat) (key : String) (depth : Nat) (rel : String)
      (parent : Option String) (vis : List String),
      (((traverseGo w proj ty maxD fuel key depth rel parent vis).1.map
          (fun n => n.issue.key)).Nodup) ∧
      ∀ x ∈ (traverseGo w proj ty maxD fuel key depth rel parent vis).1.map
          (fun n => n.issue.key),
        x ∉ vis ∧ x ∈ (traverseGo w proj ty maxD fuel key depth rel parent vis).2 := by
  intro fuel
  induction fuel with
  | zero => intro key depth rel parent vis; simp [traverseGo_zero]
  | succ f ih =>
    intro key depth rel parent vis
    by_cases hstop : maxD < depth ∨ key ∈ vis
    · rw [traverseGo_stop w proj ty maxD f key depth rel parent vis hstop]; simp
    · have hstop1 : ¬ maxD < depth := fun h => hstop (Or.inl h)
      have hstop2 : key ∉ vis := fun h => hstop (Or.inr h)
      rcases hi : getIssue w key with _ | issue
      · rw [traverseGo_notFound w proj ty maxD f key depth rel parent vis
          hstop1 hstop2 hi]
        simp
      · rw [traverseGo_found w proj ty maxD f key depth rel parent vis issue
          hstop1 hstop2 hi]
        have hseq := traverseSeq_keys _
          (fun k r v => traverseGo_vis_mono w proj ty maxD f k (depth + 1) r (some key) v)
          (fun k r v => ih k (depth + 1) r (some key) v)
          (descendantsOf w proj ty key issue (key :: vis)) (key :: vis)
        have hkk : issue.key = key := getIssue_key hi
        have hmono := traverseSeq_vis_mono _
          (fun k r v => traverseGo_vis_mono w proj ty maxD f k (depth + 1) r (some key) v)
          (descendantsOf w proj ty key issue (key :: vis)) (key :: vis)
        by_cases hy : shouldYield ty issue
        · simp only [hy, if_pos, List.map_append, List.map_cons, List.map_nil,
            List.mem_append, List.mem_cons, List.mem_singleton]
          constructor
          · refine List.Nodup.append (by simp) hseq.1 ?_
            intro x hx1 hx2
            have hx1' : x = issue.key := by simpa using hx1
            have := (hseq.2 x hx2).1
            exact this (by rw [hx1', hkk]; exact List.mem_cons_self _ _)
          · intro x hx
            rcases hx with hx | hx
            · have hx' : x = key := by simpa [hkk] using hx
              subst hx'
              exact ⟨hstop2, hmono (List.mem_cons_self _ _)⟩
            · have := hseq.2 x hx
              exact ⟨fun hv => this.1 (List.mem_cons_of_mem _ hv), this.2⟩
        · simp only [hy, if_neg, Bool.false_eq_true, List.nil_append]
          constructor
          · exact hseq.1
          · intro x hx
            have := hseq.2 x hx
            exact ⟨fun hv => this.1 (List.mem_cons_of_mem _ hv), this.2⟩

theorem traverseAllGo_keys (w : World) (proj ty : Option String) (maxD : Nat) :
    ∀ (fuel : Nat) (key : String) (depth : Nat) (rel : String)
      (parent : Option String) (vis : List String),
      (((traverseAllGo w proj ty maxD fuel key depth rel parent vis).1.map
          (fun n => n.issue.key)).Nodup) ∧
      ∀ x ∈ (traverseAllGo w proj ty maxD fuel key depth rel parent vis).1.map
          (fun n => n.issue.key),
        x ∉ vis ∧ x ∈ (traverseAllGo w proj ty maxD fuel key depth rel parent vis).2 := by
  intro fuel
  induction fuel with
  | zero => intro key depth rel parent vis; simp [traverseAllGo_zero]
  | succ f ih =>
    intro key depth rel parent vis
    by_cases hstop : maxD < depth ∨ key ∈ vis
    · rw [traverseAllGo_stop w proj ty maxD f key depth rel parent vis hstop]; simp
    · have hstop1 : ¬ maxD < depth := fun h => hstop (Or.inl h)
      have hstop2 : key ∉ vis := fun h => hstop (Or.inr h)
      rcases hi : getIssue w key with _ | issue
      · rw [traverseAllGo_notFound w proj ty maxD f key depth rel parent vis
          hstop1 hstop2 hi]
        simp
      · rw [traverseAllGo_found w proj ty maxD f key depth rel parent vis issue
          hstop1 hstop2 hi]
        have hseq := traverseSeq_keys _
          (fun k r v => traverseAllGo_vis_mono w proj ty maxD f k (depth + 1) r (some key) v)
          (fun k r v => ih k (depth + 1) r (some key) v)
          (descendantsOf w proj ty key issue (key :: vis)) (key :: vis)
        have hkk : issue.key = key := getIssue_key hi
        have hmono := traverseSeq_vis_mono _
          (fun k r v => traverseAllGo_vis_mono w proj ty maxD f k (depth + 1) r (some key) v)
          (descendantsOf w proj ty key issue (key :: vis)) (key :: vis)
        simp only [List.map_cons, List.nodup_cons, List.mem_cons]
        refine ⟨⟨?_, hseq.1⟩, ?_⟩
        · intro hmem
          have := (hseq.2 issue.key hmem).1
          exact this (by rw [hkk]; exact List.mem_cons_self _ _)
        · intro x hx
          rcases hx with hx | hx
          · subst hx
            rw [hkk]
            exact ⟨hstop2, hmono (List.mem_cons_self _ _)⟩
          · have := hseq.2 x hx
            exact ⟨fun hv => this.1 (List.mem_cons_of_mem _ hv), this.2⟩

/-! ## Exact characterization of the yielded keys (no reporting filter) -/

theorem traverseSeq_mem_iff (w : World)
    (step : String → String → List String → List HierNode × List String)
    (hmono : ∀ k r v, v ⊆ (step k r v).2)
    (hiff : ∀ k r v x, x ∈ (step k r v).1.map (fun n => n.issue.key) ↔
      (x ∈ (step k r v).2 ∧ x ∉ v ∧ (getIssue w x).isSome)) :
    ∀ (ds : List (String × String)) (vis : List String) (x : String),
      x ∈ (traverseSeq step ds vis).1.map (fun n => n.issue.key) ↔
      (x ∈ (traverseSeq step ds vis).2 ∧ x ∉ vis ∧ (getIssue w x).isSome) := by
  intro ds
  induction ds with
  | nil =>
    intro vis x
    simp [traverseSeq_nil]
    intro hv hnv
    exact absurd hv hnv
  | cons d ds ih =>
    intro vis x
    rw [traverseSeq_cons]
    simp only [List.map_append, List.mem_append]
    constructor
    · rintro (hx | hx)
      · obtain ⟨hv1, hnv, hf⟩ := (hiff d.1 d.2 vis x).mp hx
        exact ⟨traverseSeq_vis_mono step hmono ds _ hv1, hnv, hf⟩
      · obtain ⟨hv2, hnv1, hf⟩ := (ih _ x).mp hx
        exact ⟨hv2, fun hv => hnv1 (hmono d.1 d.2 vis hv), hf⟩
    · rintro ⟨hv2, hnv, hf⟩
      by_cases hv1 : x ∈ (step d.1 d.2 vis).2
      · exact Or.inl ((hiff d.1 d.2 vis x).mpr ⟨hv1, hnv, hf⟩)
      · exact Or.inr ((ih _ x).mpr ⟨hv2, hv1, hf⟩)

theorem traverseGo_mem_iff (w : World) (proj : Option String) (maxD : Nat) :
    ∀ (fuel : Nat) (key : String) (depth : Nat) (rel : String)
      (parent : Option String) (vis : List String) (x : String),
      x ∈ (traverseGo w proj none maxD fuel key depth rel parent vis).1.map
          (fun n => n.issue.key) ↔
      (x ∈ (traverseGo w proj none maxD fuel key depth rel parent vis).2 ∧
        x ∉ vis ∧ (getIssue w x).isSome) := by
  intro fuel
  induction fuel with
  | zero =>
    intro key depth rel parent vis x
    simp only [traverseGo_zero]
    simp
    intro hv hnv
    exact absurd hv hnv
  | succ f ih =>
    intro key depth rel parent vis x
    by_cases hstop : maxD < depth ∨ key ∈ vis
    · rw [traverseGo_stop w proj none maxD f key depth rel parent vis hstop]
      simp
      intro hv hnv
      exact absurd hv hnv
    · have hstop1 : ¬ maxD < depth := fun h => hstop (Or.inl h)
      have hstop2 : key ∉ vis := fun h => hstop (Or.inr h)
      rcases hi : getIssue w key with _ | issue
      · rw [traverseGo_notFound w proj none maxD f key depth rel parent vis
          hstop1 hstop2 hi]
        simp only [List.map_nil, List.mem_nil_iff, false_iff]
        rintro ⟨hv, hnv, hf⟩
        rcases List.mem_cons.mp hv with rfl | hv
        · rw [hi] at hf
          simp at hf
        · exact hnv hv
      · rw [traverseGo_found w proj none maxD f key depth rel parent vis issue
          hstop1 hstop2 hi]
        have hkk : issue.key = key := getIssue_key hi
        have hmono := traverseSeq_vis_mono _
          (fun k r v => traverseGo_vis_mono w proj none maxD f k (depth + 1) r (some key) v)
          (descendantsOf w proj none key issue (key :: vis)) (key :: vis)
        have hseq := traverseSeq_mem_iff w _
          (fun k r v => traverseGo_vis_mono w proj none maxD f k (depth + 1) r (some key) v)
          (fun k r v x => ih k (depth + 1) r (some key) v x)
          (descendantsOf w proj none key issue (key :: vis)) (key :: vis)
        simp only [shouldYield, if_pos, List.map_append, List.map_cons, List.map_nil,
          List.mem_append, List.mem_cons, List.mem_nil_iff, or_false, hkk]
        constructor
        · rintro (rfl | hx)
          · exact ⟨hmono (List.mem_cons_self _ _), hstop2, by simp [hi]⟩
          · obtain ⟨hv, hnv, hf⟩ := (hseq x).mp hx
            exact ⟨hv, fun h => hnv (List.mem_cons_of_mem _ h), hf⟩
        · rintro ⟨hv, hnv, hf⟩
          by_cases hxk : x = key
          · exact Or.inl hxk
          · refine Or.inr ((hseq x).mpr ⟨hv, ?_, hf⟩)
            intro hmem
            rcases List.mem_cons.mp hmem with h | h
            · exact hxk h
            · exact hnv h

/-! ## The reporting filter relative to the full traversal -/

theorem traverseSeq_congr_filter (P : HierNode → Bool)
    (stepF stepA : String → String → List String → List HierNode × List String)
    (h : ∀ k r v, stepF k r v = ((stepA k r v).1.filter P, (stepA k r v).2)) :
    ∀ (ds : List (String × String)) (vis : List String),
      traverseSeq stepF ds vis =
        ((traverseSeq stepA ds vis).1.filter P, (traverseSeq stepA ds vis).2) := by
  intro ds
  induction ds with
  | nil => intro vis; simp [traverseSeq_nil]
  | cons d ds ih =>
    intro vis
    rw [traverseSeq_cons, traverseSeq_cons, h d.1 d.2 vis]
    simp only [ih]
    simp [List.filter_append]

theorem traverseGo_eq_filterAll (w : World) (proj ty : Option String) (maxD : Nat) :
    ∀ (fuel : Nat) (key : String) (depth : Nat) (rel : String)
      (parent : Option String) (vis : List String),
      traverseGo w proj ty maxD fuel key depth rel parent vis =
        ((traverseAllGo w proj ty maxD fuel key depth rel parent vis).1.filter
            (fun n => shouldYield ty n.issue),
         (traverseAllGo w proj ty maxD fuel key depth rel parent vis).2) := by
  intro fuel
  induction fuel with
  | zero => intro key depth rel parent vis; simp [traverseGo_zero, traverseAllGo_zero]
  | succ f ih =>
    intro key depth rel parent vis
    by_cases hstop : maxD < depth ∨ key ∈ vis
    · rw [traverseGo_stop w proj ty maxD f key depth rel parent vis hstop,
        traverseAllGo_stop w proj ty maxD f key depth rel parent vis hstop]
      simp
    · have hstop1 : ¬ maxD < depth := fun h => hstop (Or.inl h)
      have hstop2 : key ∉ vis := fun h => hstop (Or.inr h)
      rcases hi : getIssue w key with _ | issue
      · rw [traverseGo_notFound w proj ty maxD f key depth rel parent vis
          hstop1 hstop2 hi,
          traverseAllGo_notFound w proj ty maxD f key depth rel parent vis
          hstop1 hstop2 hi]
        simp
      · rw [traverseGo_found w proj ty maxD f key depth rel parent vis issue
          hstop1 hstop2 hi,
          traverseAllGo_found w proj ty maxD f key depth rel parent vis issue
          hstop1 hstop2 hi]
        have hseq := traverseSeq_congr_filter (fun n => shouldYield ty n.issue)
          (fun k r v => traverseGo w proj ty maxD f k (depth + 1) r (some key) v)
          (fun k r v => traverseAllGo w proj ty maxD f k (depth + 1) r (some key) v)
          (fun k r v => ih k (depth + 1) r (some key) v)
          (descendantsOf w proj ty key issue (key :: vis)) (key :: vis)
        rw [hseq]
        simp only [List.filter_cons]
        by_cases hy : shouldYield ty issue
        · simp [hy]
        · simp [hy]

/-- Specialisation: with no issue-type filter the traversal and its full
sequence coincide. -/
theorem traverseGo_none_eq_all (w : World) (proj : Option String) (maxD : Nat)
    (fuel : Nat) (key : String) (depth : Nat) (rel : String)
    (parent : Option String) (vis : List String) :
    traverseGo w proj none maxD fuel key depth rel parent vis =
      traverseAllGo w proj none maxD fuel key depth rel parent vis := by
  rw [traverseGo_eq_filterAll]
  rcases h : traverseAllGo w proj none maxD fuel key depth rel parent vis with ⟨out, v⟩
  simp [shouldYield]

/-! ## The depth/parent invariant of the traversal -/

theorem traverseSeq_depth (D : Nat) (PK : String)
    (step : String → String → List String → List HierNode × List String)
    (hstep : ∀ k r v n, n ∈ (step k r v).1 →
      (n.depth = D ∧ n.relationship = r ∧ n.parentKey = some PK) ∨
      (∃ m ∈ (step k r v).1, n.parentKey = some m.issue.key ∧ n.depth = m.depth + 1 ∧
        (n.relationship = "linked" ∨ n.relationship = "child"))) :
    ∀ (ds : List (String × String)) (vis : List String) (n : HierNode),
      n ∈ (traverseSeq step ds vis).1 →
      (n.depth = D ∧ n.parentKey = some PK ∧ ∃ e ∈ ds, n.relationship = e.2) ∨
      (∃ m ∈ (traverseSeq step ds vis).1, n.parentKey = some m.issue.key ∧
        n.depth = m.depth + 1 ∧ (n.relationship = "linked" ∨ n.relationship = "child")) := by
  intro ds
  induction ds with
  | nil => intro vis n hn; simp [traverseSeq_nil] at hn
  | cons d ds ih =>
    intro vis n hn
    rw [traverseSeq_cons] at hn ⊢
    simp only [List.mem_append] at hn
    rcases hn with hn | hn
    · rcases hstep d.1 d.2 vis n hn with ⟨h1, h2, h3⟩ | ⟨m, hm, hr⟩
      · exact Or.inl ⟨h1, h3, d, List.mem_cons_self _ _, h2⟩
      · exact Or.inr ⟨m, by simp [List.mem_append, hm], hr⟩
    · rcases ih _ n hn with ⟨h1, h2, e, he, h3⟩ | ⟨m, hm, hr⟩
      · exact Or.inl ⟨h1, h2, e, List.mem_cons_of_mem _ he, h3⟩
      · exact Or.inr ⟨m, by simp [List.mem_append, hm], hr⟩

theorem traverseAllGo_depth (w : World) (proj ty : Option String) (maxD : Nat) :
    ∀ (fuel : Nat) (key : String) (depth : Nat) (rel : String)
      (parent : Option String) (vis : List String) (n : HierNode),
      n ∈ (traverseAllGo w proj ty maxD fuel key depth rel parent vis).1 →
      (n.depth = depth ∧ n.relationship = rel ∧ n.parentKey = parent) ∨
      (∃ m ∈ (traverseAllGo w proj ty maxD fuel key depth rel parent vis).1,
        n.parentKey = some m.issue.key ∧ n.depth = m.depth + 1 ∧
        (n.relationship = "linked" ∨ n.relationship = "child")) := by
  intro fuel
  induction fuel with
  | zero => intro key depth rel parent vis n hn; simp [traverseAllGo_zero] at hn
  | succ f ih =>
    intro key depth rel parent vis n hn
    by_cases hstop : maxD < depth ∨ key ∈ vis
    · rw [traverseAllGo_stop w proj ty maxD f key depth rel parent vis hstop] at hn
      simp at hn
    · have hstop1 : ¬ maxD < depth := fun h => hstop (Or.inl h)
      have hstop2 : key ∉ vis := fun h => hstop (Or.inr h)
      rcases hi : getIssue w key with _ | issue
      · rw [traverseAllGo_notFound w proj ty maxD f key depth rel parent vis
          hstop1 hstop2 hi] at hn
        simp at hn
      · rw [traverseAllGo_found w proj ty maxD f key depth rel parent vis issue
          hstop1 hstop2 hi] at hn ⊢
        have hkk : issue.key = key := getIssue_key hi
        rcases List.mem_cons.mp hn with rfl | hn
        · exact Or.inl ⟨rfl, rfl, rfl⟩
        · have hseq := traverseSeq_depth (depth + 1) key
            (fun k r v => traverseAllGo w proj ty maxD f k (depth + 1) r (some key) v)
            (fun k r v n hn => ih k (depth + 1) r (some key) v n hn)
            (descendantsOf w proj ty key issue (key :: vis)) (key :: vis) n hn
          rcases hseq with ⟨h1, h2, e, he, h3⟩ | ⟨m, hm, hr⟩
          · refine Or.inr ⟨HierNode.mk issue depth rel parent,
              List.mem_cons_self _ _, ?_, ?_, ?_⟩
            · simpa [hkk] using h2
            · simpa using h1
            · rcases descendantsOf_rel he with h | h
              · exact Or.inl (h3.trans h)
              · exact Or.inr (h3.trans h)
          · exact Or.inr ⟨m, List.mem_cons_of_mem _ hm, hr⟩

/-! ## Linked nodes are justified by a non-clone link -/

/-- Some issue of the world carries a non-clone link whose target is `k`. -/
def LinkJustified (w : World) (k : String) : Prop :=
  ∃ i ∈ w, ∃ l ∈ i.links, isCloneLink l = false ∧ l.target = some k

theorem traverseSeq_linked (w : World)
    (step : String → String → List String → List HierNode × List String)
    (hstep : ∀ k r v, (r = "linked" → LinkJustified w k) → ∀ n ∈ (step k r v).1,
      n.relationship = "linked" → LinkJustified w n.issue.key) :
    ∀ (ds : List (String × String)) (vis : List String),
      (∀ e ∈ ds, e.2 = "linked" → LinkJustified w e.1) →
      ∀ n ∈ (traverseSeq step ds vis).1, n.relationship = "linked" →
        LinkJustified w n.issue.key := by
  intro ds
  induction ds with
  | nil => intro vis _ n hn; simp [traverseSeq_nil] at hn
  | cons d ds ih =>
    intro vis hds n hn hrel
    rw [traverseSeq_cons] at hn
    rcases List.mem_append.mp hn with hn | hn
    · exact hstep d.1 d.2 vis (hds d (List.mem_cons_self _ _)) n hn hrel
    · exact ih _ (fun e he => hds e (List.mem_cons_of_mem _ he)) n hn hrel

theorem traverseGo_linked (w : World) (proj ty : Option String) (maxD : Nat) :
    ∀ (fuel : Nat) (key : String) (depth : Nat) (rel : String)
      (parent : Option String) (vis : List String),
      (rel = "linked" → LinkJustified w key) →
      ∀ n ∈ (traverseGo w proj ty maxD fuel key depth rel parent vis).1,
        n.relationship = "linked" → LinkJustified w n.issue.key := by
  intro fuel
  induction fuel with
  | zero => intro key depth rel parent vis _ n hn; simp [traverseGo_zero] at hn
  | succ f ih =>
    intro key depth rel parent vis hjust n hn hrel
    by_cases hstop : maxD < depth ∨ key ∈ vis
    · rw [traverseGo_stop w proj ty maxD f key depth rel parent vis hstop] at hn
      simp at hn
    · have hstop1 : ¬ maxD < depth := fun h => hstop (Or.inl h)
      have hstop2 : key ∉ vis := fun h => hstop (Or.inr h)
      rcases hi : getIssue w key with _ | issue
      · rw [traverseGo_notFound w proj ty maxD f key depth rel parent vis
          hstop1 hstop2 hi] at hn
        simp at hn
      · rw [traverseGo_found w proj ty maxD f key depth rel parent vis issue
          hstop1 hstop2 hi] at hn
        have hkk : issue.key = key := getIssue_key hi
        rcases List.mem_append.mp hn with hn | hn
        · have hn' : n = HierNode.mk issue depth rel parent := by
            rcases hy : shouldYield ty issue with _ | _
            · rw [hy] at hn; simp at hn
            · rw [hy] at hn; simpa using hn
          subst hn'
          rw [hkk]
          exact hjust hrel
        · refine traverseSeq_linked w _
            (fun k r v hj n hn hrel => ih k (depth + 1) r (some key) v hj n hn hrel)
            (descendantsOf w proj ty key issue (key :: vis)) (key :: vis)
            ?_ n hn hrel
          intro e he herel
          rcases mem_descendantsOf he with ⟨_, hcand⟩ | hchild
          · obtain ⟨l, hl, hnc, ht, _, _⟩ := mem_linkedCandidates hcand
            exact ⟨issue, getIssue_mem hi, l, hl, hnc, ht⟩
          · have := (mem_childCandidates hchild).1
            rw [this] at herel
            simp at herel

/-! ## Reachability and the key space (unfiltered traversal) -/

/-- The targets of an issue's non-clone links. -/
def nonCloneTargets (links : List IssueLink) : List String :=
  links.filterMap (fun l => if isCloneLink l then none else l.target)

/-- The non-empty keys the child query returns for `key` (no filters). -/
def childKeysOf (w : World) (key : String) : List String :=
  ((childrenQueryIssues w none none key).map (fun c => c.key)).filter (fun k => k != "")

/-- The keys the traversal offers as descendants of `key` (before the
visited-set check), when no project or issue-type filter is given: the
non-clone link targets and the child keys.  Empty when the issue does not
exist, since an unresolvable key is an empty subtree. -/
def succsKeys (w : World) (key : String) : List String :=
  match getIssue w key with
  | none => []
  | some i => nonCloneTargets i.links ++ childKeysOf w key

/-- One traversal edge: `b` is a descendant candidate of `a`. -/
def reachEdge (w : World) (a b : String) : Prop := b ∈ succsKeys w a

/-- `b` is reachable from `a` along traversal edges. -/
def Reaches (w : World) (a b : String) : Prop :=
  Relation.ReflTransGen (reachEdge w) a b

/-- Every key the traversal can ever visit: the root, the keys of the world's
issues and the link targets of the world's issues. -/
def keySpace (w : World) (root : String) : Finset String :=
  insert root ((w.map (fun i => i.key)).toFinset ∪
    (w.flatMap (fun i => i.links.filterMap (fun l => l.target))).toFinset)

theorem root_mem_keySpace (w : World) (root : String) : root ∈ keySpace w root :=
  Finset.mem_insert_self _ _

theorem childrenQueryIssues_subset {w : World} {proj ty : Option String}
    {key : String} {c : Issue} (h : c ∈ childrenQueryIssues w proj ty key) :
    c ∈ w := by
  have := List.take_subset 100 _ h
  exact List.mem_of_mem_filter this

theorem mem_nonCloneTargets {links : List IssueLink} {s : String} :
    s ∈ nonCloneTargets links ↔
      ∃ l ∈ links, isCloneLink l = false ∧ l.target = some s := by
  constructor
  · intro h
    obtain ⟨l, hl, he⟩ := List.mem_filterMap.mp h
    by_cases hc : isCloneLink l
    · rw [if_pos hc] at he; cases he
    · rw [if_neg hc] at he
      exact ⟨l, hl, by simpa using hc, he⟩
  · rintro ⟨l, hl, hc, ht⟩
    refine List.mem_filterMap.mpr ⟨l, hl, ?_⟩
    rw [hc]
    simpa using ht

theorem mem_childKeysOf {w : World} {key s : String} :
    s ∈ childKeysOf w key ↔
      s ≠ "" ∧ ∃ c ∈ childrenQueryIssues w none none key, c.key = s := by
  constructor
  · intro h
    obtain ⟨hm, hne⟩ := List.mem_filter.mp h
    obtain ⟨c, hc, he⟩ := List.mem_map.mp hm
    exact ⟨by simpa using hne, c, hc, he⟩
  · rintro ⟨hne, c, hc, he⟩
    refine List.mem_filter.mpr ⟨List.mem_map.mpr ⟨c, hc, he⟩, by simpa using hne⟩

theorem succsKeys_subset_keySpace {w : World} (root : String) {k s : String}
    (h : s ∈ succsKeys w k) : s ∈ keySpace w root := by
  unfold succsKeys at h
  rcases hi : getIssue w k with _ | i
  · rw [hi] at h; simp at h
  · rw [hi] at h
    rcases List.mem_append.mp h with h | h
    · obtain ⟨l, hl, _, ht⟩ := mem_nonCloneTargets.mp h
      refine Finset.mem_insert_of_mem (Finset.mem_union_right _ ?_)
      refine List.mem_toFinset.mpr (List.mem_flatMap.mpr ⟨i, getIssue_mem hi, ?_⟩)
      exact List.mem_filterMap.mpr ⟨l, hl, ht⟩
    · obtain ⟨_, c, hc, he⟩ := mem_childKeysOf.mp h
      refine Finset.mem_insert_of_mem (Finset.mem_union_left _ ?_)
      exact List.mem_toFinset.mpr (List.mem_map.mpr ⟨c, childrenQueryIssues_subset hc, he⟩)

theorem descendantsOf_cover {w : World} {key : String} {issue : Issue}
    {vis : List String} {s : String} (hi : getIssue w key = some issue)
    (hs : s ∈ succsKeys w key) :
    s ∈ vis ∨ ∃ r, (s, r) ∈ descendantsOf w none none key issue vis := by
  unfold succsKeys at hs
  rw [hi] at hs
  rcases List.mem_append.mp hs with hs | hs
  · obtain ⟨l, hl, hc, ht⟩ := mem_nonCloneTargets.mp hs
    rcases @linkedCandidates_complete none vis _ _ _ hl hc ht (by simp [projOk]) with h | h
    · exact Or.inl h
    · refine Or.inr ⟨"linked", ?_⟩
      unfold descendantsOf
      exact List.mem_append.mpr (Or.inl (List.mem_map.mpr ⟨s, h, rfl⟩))
  · obtain ⟨hne, c, hc, he⟩ := mem_childKeysOf.mp hs
    rcases @childCandidates_complete _ _ _ _ vis _ hc (by rw [he]; exact hne) with h | h
    · rw [he] at h; exact Or.inl h
    · refine Or.inr ⟨"child", ?_⟩
      unfold descendantsOf
      rw [he] at h
      exact List.mem_append.mpr (Or.inr h)

theorem descendantsOf_subset_succs {w : World} {key : String} {issue : Issue}
    {vis : List String} {e : String × String} (hi : getIssue w key = some issue)
    (he : e ∈ descendantsOf w none none key issue vis) :
    e.1 ∈ succsKeys w key := by
  unfold succsKeys
  rw [hi]
  rcases mem_descendantsOf he with ⟨_, hcand⟩ | hchild
  · obtain ⟨l, hl, hnc, ht, _, _⟩ := mem_linkedCandidates hcand
    exact List.mem_append.mpr (Or.inl (mem_nonCloneTargets.mpr ⟨l, hl, hnc, ht⟩))
  · obtain ⟨_, hne, _, c, hc, hk⟩ := mem_childCandidates hchild
    exact List.mem_append.mpr (Or.inr (mem_childKeysOf.mpr ⟨hne, c, hc, hk⟩))

/-! ## Completeness: the final visited set is closed under traversal edges -/

theorem card_sdiff_le_of_subset {KS : Finset String} {v v' : List String}
    (h : v ⊆ v') : (KS \ v'.toFinset).card ≤ (KS \ v.toFinset).card := by
  refine Finset.card_le_card (Finset.sdiff_subset_sdiff (le_refl _) ?_)
  intro x hx
  exact List.mem_toFinset.mpr (h (List.mem_toFinset.mp hx))

theorem key_mem_of_card_zero {KS : Finset String} {v : List String} {key : String}
    (hk : key ∈ KS) (hcard : (KS \ v.toFinset).card = 0) : key ∈ v := by
  have hemp : KS \ v.toFinset = ∅ := Finset.card_eq_zero.mp hcard
  by_contra hnv
  have hmem : key ∈ KS \ v.toFinset :=
    Finset.mem_sdiff.mpr ⟨hk, fun h => hnv (List.mem_toFinset.mp h)⟩
  rw [hemp] at hmem
  exact absurd hmem (Finset.not_mem_empty _)

theorem traverseSeq_closure (w : World) (maxD : Nat) (KS : Finset String)
    (D : Nat)
    (step : String → String → List String → List HierNode × List String)
    (hmono : ∀ k r v, v ⊆ (step k r v).2)
    (hstep : ∀ k r v, k ∈ KS → (∀ x ∈ v, x ∈ KS) →
      (KS \ v.toFinset).card + D ≤ maxD + 1 →
      (k ∈ (step k r v).2 ∧ (∀ x ∈ (step k r v).2, x ∈ KS) ∧
       ∀ j ∈ (step k r v).2, j ∉ v → ∀ s ∈ succsKeys w j, s ∈ (step k r v).2)) :
    ∀ (ds : List (String × String)) (vis : List String),
      (∀ e ∈ ds, e.1 ∈ KS) → (∀ x ∈ vis, x ∈ KS) →
      (KS \ vis.toFinset).card + D ≤ maxD + 1 →
      ((∀ e ∈ ds, e.1 ∈ (traverseSeq step ds vis).2) ∧
       (∀ x ∈ (traverseSeq step ds vis).2, x ∈ KS) ∧
       ∀ j ∈ (traverseSeq step ds vis).2, j ∉ vis →
         ∀ s ∈ succsKeys w j, s ∈ (traverseSeq step ds vis).2) := by
  intro ds
  induction ds with
  | nil =>
    intro vis _ hvis _
    refine ⟨by simp, ?_, ?_⟩
    · simpa [traverseSeq_nil] using hvis
    · intro j hj hnj
      rw [traverseSeq_nil] at hj
      exact absurd hj hnj
  | cons d ds ih =>
    intro vis hds hvis hcard
    have hstep1 := hstep d.1 d.2 vis (hds d (List.mem_cons_self _ _)) hvis hcard
    obtain ⟨hd1, hv1KS, hclos1⟩ := hstep1
    have hv1card : (KS \ (step d.1 d.2 vis).2.toFinset).card + D ≤ maxD + 1 :=
      le_trans (Nat.add_le_add_right (card_sdiff_le_of_subset (hmono d.1 d.2 vis)) D) hcard
    have hih := ih (step d.1 d.2 vis).2 (fun e he => hds e (List.mem_cons_of_mem _ he))
      hv1KS hv1card
    obtain ⟨hds2, hv2KS, hclos2⟩ := hih
    have hv1v2 : (step d.1 d.2 vis).2 ⊆ (traverseSeq step ds (step d.1 d.2 vis).2).2 :=
      traverseSeq_vis_mono step hmono ds _
    rw [traverseSeq_cons]
    refine ⟨?_, hv2KS, ?_⟩
    · intro e he
      rcases List.mem_cons.mp he with rfl | he
      · exact hv1v2 hd1
      · exact hds2 e he
    · intro j hj hnj s hs
      by_cases hjv1 : j ∈ (step d.1 d.2 vis).2
      · exact hv1v2 (hclos1 j hjv1 hnj s hs)
      · exact hclos2 j hj hjv1 s hs

theorem traverseGo_closure (w : World) (maxD : Nat) (KS : Finset String)
    (hKS : ∀ k s, s ∈ succsKeys w k → s ∈ KS) :
    ∀ (fuel : Nat) (key : String) (depth : Nat) (rel : String)
      (parent : Option String) (vis : List String),
      key ∈ KS → (∀ x ∈ vis, x ∈ KS) →
      maxD + 1 ≤ fuel + depth →
      (KS \ vis.toFinset).card + depth ≤ maxD + 1 →
      (key ∈ (traverseGo w none none maxD fuel key depth rel parent vis).2 ∧
       (∀ x ∈ (traverseGo w none none maxD fuel key depth rel parent vis).2, x ∈ KS) ∧
       ∀ j ∈ (traverseGo w none none maxD fuel key depth rel parent vis).2,
         j ∉ vis → ∀ s ∈ succsKeys w j,
           s ∈ (traverseGo w none none maxD fuel key depth rel parent vis).2) := by
  intro fuel
  induction fuel with
  | zero =>
    intro key depth rel parent vis hk hvis hfuel hcard
    have hc0 : (KS \ vis.toFinset).card = 0 := by omega
    refine ⟨?_, ?_, ?_⟩
    · simpa [traverseGo_zero] using key_mem_of_card_zero hk hc0
    · simpa [traverseGo_zero] using hvis
    · intro j hj hnj
      rw [traverseGo_zero] at hj
      exact absurd hj hnj
  | succ f ih =>
    intro key depth rel parent vis hk hvis hfuel hcard
    by_cases hd : maxD < depth
    · have hc0 : (KS \ vis.toFinset).card = 0 := by omega
      rw [traverseGo_stop w none none maxD f key depth rel parent vis (Or.inl hd)]
      refine ⟨key_mem_of_card_zero hk hc0, hvis, ?_⟩
      intro j hj hnj
      exact absurd hj hnj
    · by_cases hv : key ∈ vis
      · rw [traverseGo_stop w none none maxD f key depth rel parent vis (Or.inr hv)]
        refine ⟨hv, hvis, ?_⟩
        intro j hj hnj
        exact absurd hj hnj
      · rcases hi : getIssue w key with _ | issue
        · rw [traverseGo_notFound w none none maxD f key depth rel parent vis hd hv hi]
          refine ⟨List.mem_cons_self _ _, ?_, ?_⟩
          · intro x hx
            rcases List.mem_cons.mp hx with rfl | hx
            · exact hk
            · exact hvis x hx
          · intro j hj hnj s hs
            rcases List.mem_cons.mp hj with rfl | hj
            · unfold succsKeys at hs
              rw [hi] at hs
              simp at hs
            · exact absurd hj hnj
        · rw [traverseGo_found w none none maxD f key depth rel parent vis issue hd hv hi]
          have hkey_new : key ∈ KS \ vis.toFinset :=
            Finset.mem_sdiff.mpr ⟨hk, fun h => hv (List.mem_toFinset.mp h)⟩
          have hcard1 : (KS \ (key :: vis).toFinset).card + (depth + 1) ≤ maxD + 1 := by
            rw [List.toFinset_cons, Finset.sdiff_insert,
              Finset.card_erase_of_mem hkey_new]
            have hpos : 1 ≤ (KS \ vis.toFinset).card := Finset.card_pos.mpr ⟨key, hkey_new⟩
            omega
          have hvis1 : ∀ x ∈ key :: vis, x ∈ KS := by
            intro x hx
            rcases List.mem_cons.mp hx with rfl | hx
            · exact hk
            · exact hvis x hx
          have hds : ∀ e ∈ descendantsOf w none none key issue (key :: vis), e.1 ∈ KS :=
            fun e he => hKS key e.1 (descendantsOf_subset_succs hi he)
          have hseq := traverseSeq_closure w maxD KS (depth + 1)
            (fun k r v => traverseGo w none none maxD f k (depth + 1) r (some key) v)
            (fun k r v => traverseGo_vis_mono w none none maxD f k (depth + 1) r (some key) v)
            (fun k r v hkk hvv hcc =>
              ih k (depth + 1) r (some key) v hkk hvv (by omega) hcc)
            (descendantsOf w none none key issue (key :: vis)) (key :: vis)
            hds hvis1 hcard1
          obtain ⟨hdsin, hKSsub, hclos⟩ := hseq
          have hmonoSeq := traverseSeq_vis_mono
            (fun k r v => traverseGo w none none maxD f k (depth + 1) r (some key) v)
            (fun k r v => traverseGo_vis_mono w none none maxD f k (depth + 1) r (some key) v)
            (descendantsOf w none none key issue (key :: vis)) (key :: vis)
          refine ⟨hmonoSeq (List.mem_cons_self _ _), hKSsub, ?_⟩
          intro j hj hnj s hs
          by_cases hjk : j = key
          · rw [hjk] at hs
            rcases @descendantsOf_cover _ _ _ (key :: vis) _ hi hs with hsv | ⟨r, hr⟩
            · exact hmonoSeq hsv
            · exact hdsin (s, r) hr
          · refine hclos j hj ?_ s hs
            intro hmem
            rcases List.mem_cons.mp hmem with h | h
            · exact hjk h
            · exact hnj h

theorem reaches_mem_visited (w : World) (maxD : Nat) (root : String)
    (hcard : (keySpace w root).card ≤ maxD + 1) :
    ∀ k, Reaches w root k →
      k ∈ (traverseGo w none none maxD (maxD + 1) root 0 "root" none []).2 := by
  have hclos := traverseGo_closure w maxD (keySpace w root)
    (fun k s hs => succsKeys_subset_keySpace root hs)
    (maxD + 1) root 0 "root" none []
    (root_mem_keySpace w root) (by simp) (by omega) (by simpa using hcard)
  obtain ⟨hroot, _, hcl⟩ := hclos
  intro k hk
  induction hk with
  | refl => exact hroot
  | tail hab hbc ih => exact hcl _ ih (by simp) _ hbc

theorem hierarchy_complete_count (w : World) (maxD : Nat) (root : String)
    (hcard : (keySpace w root).card ≤ maxD + 1) (k : String)
    (hreach : Reaches w root k) (hfound : (getIssue w k).isSome) :
    ((getIssueHierarchy w none none maxD root).map (fun n => n.issue.key)).count k = 1 := by
  have hv := reaches_mem_visited w maxD root hcard k hreach
  have hmem : k ∈ (getIssueHierarchy w none none maxD root).map (fun n => n.issue.key) :=
    (traverseGo_mem_iff w none maxD (maxD + 1) root 0 "root" none [] k).mpr
      ⟨hv, by simp, hfound⟩
  have hnodup := (traverseGo_keys w none none maxD (maxD + 1) root 0 "root" none []).1
  exact List.count_eq_one_of_mem hnodup hmem

/-! ## Orchestrator: dry run writes nothing; processed equals labeled -/

theorem processItems_dry_writes (lim : Option Nat) (fam : Char) :
    ∀ (items : List HierNode) (pm parm : List (String × String))
      (lm : List (String × List String)) (stats : RunStats) (w : World)
      (ws : List WriteOp),
      (processItems true lim fam items pm parm lm stats w ws).2.2 = ws := by
  intro items
  induction items with
  | nil => intro pm parm lm stats w ws; rfl
  | cons item rest ih =>
    intro pm parm lm stats w ws
    simp only [processItems]
    by_cases hempty : (newLabelsFor
        (buildAncestryLabels (updTagMap pm fam item.issue.key item.issue.summary)
          (updParentMap parm item.issue.key item.parentKey) lm
          ((updParentMap parm item.issue.key item.parentKey).length + 1)
          item.issue.key item.depth)
        item.issue.labels).isEmpty
    · rw [if_pos hempty]
      exact ih _ _ _ _ _ _
    · rw [if_neg hempty]
      simp only [if_true]
      by_cases hlim : limitReached lim (stats.labeled + 1) = true
      · simp only [hlim, if_pos]
      · simp only [hlim, Bool.false_eq_true, if_false, if_neg]
        exact ih _ _ _ _ _ _

theorem processItems_delta (d : Bool) (lim : Option Nat) (fam : Char) :
    ∀ (items : List HierNode) (pm parm : List (String × String))
      (lm : List (String × List String)) (stats : RunStats) (w : World)
      (ws : List WriteOp),
      (processItems d lim fam items pm parm lm stats w ws).1.processed +
        stats.labeled =
      (processItems d lim fam items pm parm lm stats w ws).1.labeled +
        stats.processed := by
  intro items
  induction items with
  | nil =>
    intro pm parm lm stats w ws
    show stats.processed + stats.labeled = stats.labeled + stats.processed
    omega
  | cons item rest ih =>
    intro pm parm lm stats w ws
    simp only [processItems]
    by_cases hempty : (newLabelsFor
        (buildAncestryLabels (updTagMap pm fam item.issue.key item.issue.summary)
          (updParentMap parm item.issue.key item.parentKey) lm
          ((updParentMap parm item.issue.key item.parentKey).length + 1)
          item.issue.key item.depth)
        item.issue.labels).isEmpty
    · rw [if_pos hempty]
      exact ih _ _ _ _ _ _
    · rw [if_neg hempty]
      rcases d with _ | _
      · simp only [Bool.false_eq_true, if_false]
        rcases happ : applyNewLabels w item.issue.key (newLabelsFor
            (buildAncestryLabels (updTagMap pm fam item.issue.key item.issue.summary)
              (updParentMap parm item.issue.key item.parentKey) lm
              ((updParentMap parm item.issue.key item.parentKey).length + 1)
              item.issue.key item.depth)
            item.issue.labels) with ⟨w1, ws1, errs⟩
        dsimp only
        by_cases hlim : limitReached lim (stats.labeled + 1) = true
        · simp [hlim]
          omega
        · simp only [hlim, Bool.false_eq_true, if_false]
          have h := ih (updTagMap pm fam item.issue.key item.issue.summary)
            (updParentMap parm item.issue.key item.parentKey)
            ((item.issue.key, buildAncestryLabels
              (updTagMap pm fam item.issue.key item.issue.summary)
              (updParentMap parm item.issue.key item.parentKey) lm
              ((updParentMap parm item.issue.key item.parentKey).length + 1)
              item.issue.key item.depth) :: lm)
            (RunStats.mk (stats.processed + 1) (stats.labeled + 1) stats.skipped
              (stats.errors + errs)) w1 (ws ++ ws1)
          simp only [] at h
          simp only [limitReached] at *
          omega
      · simp only [if_true]
        by_cases hlim : limitReached lim (stats.labeled + 1) = true
        · simp [hlim]
          omega
        · simp only [hlim, Bool.false_eq_true, if_false]
          have h := ih (updTagMap pm fam item.issue.key item.issue.summary)
            (updParentMap parm item.issue.key item.parentKey)
            ((item.issue.key, buildAncestryLabels
              (updTagMap pm fam item.issue.key item.issue.summary)
              (updParentMap parm item.issue.key item.parentKey) lm
              ((updParentMap parm item.issue.key item.parentKey).length + 1)
              item.issue.key item.depth) :: lm)
            (RunStats.mk (stats.processed + 1) (stats.labeled + 1) stats.skipped
              stats.errors) w ws
          simp only [] at h
          omega

theorem labelRoadmap_dry_writes (w : World) (root : String) (proj : Option String)
    (lim : Option Nat) :
    writesOf (labelRoadmapHierarchy w root proj true lim) = [] := by
  unfold labelRoadmapHierarchy
  rcases hroot : getIssue w root with _ | ri
  · rfl
  · dsimp only
    rcases htag : extractRoadmapTag ri.summary with _ | tag
    · rfl
    · dsimp only
      rcases hp : processItems true lim (tag.toList.headD ' ')
        (getIssueHierarchy w proj none 10 root) [] [] [] ⟨0, 0, 0, 0⟩ w []
        with ⟨stats, w', ws⟩
      have hws : ws = [] := by
        have := processItems_dry_writes lim (tag.toList.headD ' ')
          (getIssueHierarchy w proj none 10 root) [] [] [] ⟨0, 0, 0, 0⟩ w []
        rw [hp] at this
        exact this
      simp [writesOf, hws]

theorem labelRoadmap_counts (w : World) (root : String) (proj : Option String)
    (d : Bool) (lim : Option Nat) (stats : RunStats) (ws : List WriteOp)
    (h : labelRoadmapHierarchy w root proj d lim = .ok (stats, ws)) :
    stats.processed = stats.labeled := by
  unfold labelRoadmapHierarchy at h
  rcases hroot : getIssue w root with _ | ri
  · rw [hroot] at h; cases h
  · rw [hroot] at h
    dsimp only at h
    rcases htag : extractRoadmapTag ri.summary with _ | tag
    · rw [htag] at h; cases h
    · rw [htag] at h
      dsimp only at h
      rcases hp : processItems d lim (tag.toList.headD ' ')
        (getIssueHierarchy w proj none 10 root) [] [] [] ⟨0, 0, 0, 0⟩ w []
        with ⟨stats', w', ws'⟩
      rw [hp] at h
      dsimp only at h
      cases h
      have := processItems_delta d lim (tag.toList.headD ' ')
        (getIssueHierarchy w proj none 10 root) [] [] [] ⟨0, 0, 0, 0⟩ w []
      rw [hp] at this
      simpa using this

theorem labelRoadmap_badRoot (w : World) (root : String) (proj : Option String)
    (d : Bool) (lim : Option Nat) (i : Issue) (hroot : getIssue w root = some i)
    (htag : extractRoadmapTag i.summary = none) :
    labelRoadmapHierarchy w root proj d lim =
      .error ("Root issue " ++ root ++ " has no valid prefix in summary: '" ++
        i.summary ++ "'") := by
  unfold labelRoadmapHierarchy
  rw [hroot]
  dsimp only
  rw [htag]

/-! ## The ancestry chain of the parent map -/

/-- The key sequence the `while current_key:` walk of `_build_ancestry_labels`
visits, from the item itself up to the root: an empty key ends the walk at
once, a key with no parent entry is the last one visited, and otherwise the
walk continues at the parent. -/
inductive ParentChain (parm : List (String × String)) : String → List String → Prop
  | empty : ParentChain parm "" []
  | last (k : String) : k ≠ "" → lookupS parm k = none → ParentChain parm k [k]
  | step (k nxt : String) (c : List String) : k ≠ "" → lookupS parm k = some nxt →
      ParentChain parm nxt c → ParentChain parm k (k :: c)

theorem collectAncestry_chain (pm parm : List (String × String)) :
    ∀ (c : List String) (key : String) (fuel : Nat),
      ParentChain parm key c → c.length ≤ fuel →
      collectAncestry pm parm fuel key =
        c.filterMap (fun k => (lookupS pm k).map lowerStr) := by
  intro c key fuel hc
  induction hc generalizing fuel with
  | empty =>
    intro _
    rcases fuel with _ | f
    · rfl
    · simp [collectAncestry]
  | last k hk hnone =>
    intro hfuel
    rcases fuel with _ | f
    · simp at hfuel
    · simp only [collectAncestry, hk, if_neg, hnone]
      rcases hpm : lookupS pm k with _ | p <;> simp [hpm]
  | step k nxt c hk hsome hchain ih =>
    intro hfuel
    rcases fuel with _ | f
    · simp at hfuel
    · simp only [collectAncestry, hk, if_neg, hsome]
      have hlen : c.length ≤ f := by
        simp at hfuel
        omega
      rw [ih f hlen]
      rcases hpm : lookupS pm k with _ | p <;> simp [hpm]

theorem buildAncestryLabels_inherited (pm parm : List (String × String))
    (lm : List (String × List String)) (fuel : Nat) (key : String) (depth : Nat)
    (p : String) (ls : List String) (hd : 4 ≤ depth)
    (hp : lookupS parm key = some p) (hne : p ≠ "")
    (hl : lookupL lm p = some ls) :
    buildAncestryLabels pm parm lm fuel key depth = ls := by
  unfold buildAncestryLabels
  simp [hd, hp, hne, hl]

theorem buildAncestryLabels_chain (pm parm : List (String × String))
    (lm : List (String × List String)) (fuel : Nat) (key : String) (depth : Nat)
    (c : List String) (hd : depth ≤ 3) (hc : ParentChain parm key c)
    (hfuel : c.length ≤ fuel) :
    buildAncestryLabels pm parm lm fuel key depth =
      (if 3 < ((c.filterMap (fun k => (lookupS pm k).map lowerStr)).reverse).length
       then [((c.filterMap (fun k => (lookupS pm k).map lowerStr)).reverse).getD 0 "",
             ((c.filterMap (fun k => (lookupS pm k).map lowerStr)).reverse).getD
               (((c.filterMap (fun k => (lookupS pm k).map lowerStr)).reverse).length - 2) "",
             ((c.filterMap (fun k => (lookupS pm k).map lowerStr)).reverse).getD
               (((c.filterMap (fun k => (lookupS pm k).map lowerStr)).reverse).length - 1) ""]
       else (c.filterMap (fun k => (lookupS pm k).map lowerStr)).reverse) := by
  unfold buildAncestryLabels
  have h4 : ¬ 4 ≤ depth := by omega
  simp only [h4, if_false]
  rw [collectAncestry_chain pm parm c key fuel hc hfuel]

/-! ## Idempotence of the label-add operation -/

theorem getIssue_update (w : World) (k : String) (ls : List String) :
    getIssue (updateIssueLabels w k ls) k =
      (getIssue w k).map (fun i => { i with labels := ls }) := by
  induction w with
  | nil => rfl
  | cons i w ih =>
    by_cases hk : (i.key == k) = true
    · have h1 : getIssue (updateIssueLabels (i :: w) k ls) k =
          some { i with labels := ls } := by
        simp only [updateIssueLabels, List.map_cons, if_pos hk, getIssue]
        exact List.find?_cons_of_pos _ (by simpa using hk)
      have h2 : getIssue (i :: w) k = some i := by
        simp only [getIssue]
        exact List.find?_cons_of_pos _ hk
      rw [h1, h2]
      rfl
    · have h1 : getIssue (updateIssueLabels (i :: w) k ls) k =
          getIssue (updateIssueLabels w k ls) k := by
        simp only [updateIssueLabels, List.map_cons, if_neg hk, getIssue]
        exact List.find?_cons_of_neg _ hk
      have h2 : getIssue (i :: w) k = getIssue w k := by
        simp only [getIssue]
        exact List.find?_cons_of_neg _ hk
      rw [h1, h2, ih]

theorem addLabel_present (w : World) (k l : String) (i : Issue)
    (hi : getIssue w k = some i) (hl : l ∈ i.labels) :
    addLabel w k l = .ok (w, []) := by
  have hc : i.labels.contains l = true := by simp [hl]
  simp [addLabel, hi, hc, hl]

theorem addLabel_twice (w : World) (k l : String) (w1 : World)
    (ws1 : List WriteOp) (h : addLabel w k l = .ok (w1, ws1)) :
    addLabel w1 k l = .ok (w1, []) := by
  unfold addLabel at h ⊢
  rcases hi : getIssue w k with _ | i
  · rw [hi] at h; cases h
  · rw [hi] at h
    dsimp only at h
    by_cases hl : i.labels.contains l = true
    · rw [if_pos hl] at h
      cases h
      rw [hi]
      try dsimp only
      rw [if_pos hl]
    · rw [if_neg hl] at h
      cases h
      rw [getIssue_update, hi]
      simp

/-- Equality of run outcomes is decidable, so concrete runs can be checked
by evaluation. -/
instance {e a : Type} [DecidableEq e] [DecidableEq a] : DecidableEq (Except e a)
  | .error x, .error y =>
    if h : x = y then .isTrue (by rw [h]) else .isFalse (fun c => h (Except.error.inj c))
  | .ok x, .ok y =>
    if h : x = y then .isTrue (by rw [h]) else .isFalse (fun c => h (Except.ok.inj c))
  | .error _, .ok _ => .isFalse (fun c => Except.noConfusion c)
  | .ok _, .error _ => .isFalse (fun c => Except.noConfusion c)

/-! ## Concrete worlds used to settle the claims -/

instance (w : World) (a b : String) : Decidable (reachEdge w a b) :=
  inferInstanceAs (Decidable (b ∈ succsKeys w a))

theorem succsKeys_source {w : World} {a b : String} (h : b ∈ succsKeys w a) :
    ∃ i ∈ w, i.key = a := by
  unfold succsKeys at h
  rcases hi : getIssue w a with _ | i
  · rw [hi] at h; simp at h
  · exact ⟨i, getIssue_mem hi, getIssue_key hi⟩

/-- A run whose single item already carries its computed ancestry label. -/
def wSkipRun : World := [⟨"R", "C1 Root", "Epic", ["c1"], none, []⟩]

/-- A Story root with a Story child that has an Epic child: with the filter
set to Epic, the child query prunes the Story child, so the Epic grandchild
is never traversed. -/
def wTypeFilter : World :=
  [ ⟨"P-1", "R", "Story", [], none, []⟩,
    ⟨"P-2", "B", "Story", [], some "P-1", []⟩,
    ⟨"P-3", "C", "Epic", [], some "P-2", []⟩ ]

/-- Two issues linking each other: the smallest cyclic link graph. -/
def wCycle : World :=
  [ ⟨"A", "C1 Root", "Epic", [], none,
      [⟨"Relates", "relates to", "relates to", some "B"⟩]⟩,
    ⟨"B", "C1.1 Side", "Epic", [], none,
      [⟨"Relates", "relates to", "relates to", some "A"⟩]⟩ ]

/-- An acyclic parent chain of twelve issues, one deeper than the default
`max_depth` of 10 allows. -/
def wChain12 : World :=
  [ ⟨"K1", "item", "Story", [], none, []⟩,
    ⟨"K2", "item", "Story", [], some "K1", []⟩,
    ⟨"K3", "item", "Story", [], some "K2", []⟩,
    ⟨"K4", "item", "Story", [], some "K3", []⟩,
    ⟨"K5", "item", "Story", [], some "K4", []⟩,
    ⟨"K6", "item", "Story", [], some "K5", []⟩,
    ⟨"K7", "item", "Story", [], some "K6", []⟩,
    ⟨"K8", "item", "Story", [], some "K7", []⟩,
    ⟨"K9", "item", "Story", [], some "K8", []⟩,
    ⟨"K10", "item", "Story", [], some "K9", []⟩,
    ⟨"K11", "item", "Story", [], some "K10", []⟩,
    ⟨"K12", "item", "Story", [], some "K11", []⟩ ]

/-- The position of a key along the twelve-issue chain (0 for other keys):
a rank function certifying that the chain's edge relation is acyclic. -/
def chainRank (s : String) : Nat :=
  ((([("K1", 1), ("K2", 2), ("K3", 3), ("K4", 4), ("K5", 5), ("K6", 6),
      ("K7", 7), ("K8", 8), ("K9", 9), ("K10", 10), ("K11", 11), ("K12", 12)]
      : List (String × Nat)).find? (fun e => e.1 == s)).map (fun e => e.2)).getD 0

/-- A diamond: two paths (a child edge each, then a link each) reach the same
issue `C`. -/
def wDiamond : World :=
  [ ⟨"R", "root", "Epic", [], none, []⟩,
    ⟨"A", "left", "Epic", [], some "R", [⟨"Relates", "r", "r", some "C"⟩]⟩,
    ⟨"B", "right", "Epic", [], some "R", [⟨"Relates", "r", "r", some "C"⟩]⟩,
    ⟨"C", "shared", "Epic", [], none, []⟩ ]

/-- A root with one clone link and one ordinary link. -/
def wCloneW : World :=
  [ ⟨"X", "root", "Story", [], none,
      [⟨"Cloners", "is cloned by", "clones", some "Y"⟩,
       ⟨"Blocks", "is blocked by", "blocks", some "Z"⟩]⟩,
    ⟨"Y", "the clone", "Story", [], none, []⟩,
    ⟨"Z", "blocked", "Story", [], none, []⟩ ]

/-- A root with one linked issue, for the depth invariant. -/
def wDepthW : World :=
  [ ⟨"R", "root", "Epic", [], none, [⟨"Relates", "r", "r", some "S"⟩]⟩,
    ⟨"S", "linked child", "Epic", [], none, []⟩ ]

/-- A root whose summary has no roadmap prefix at all. -/
def wBadRoot : World := [⟨"R", "no tag here", "Epic", [], none, []⟩]

/-- A one-issue world for the label-add witnesses. -/
def wAddW : World := [⟨"I", "x", "Story", ["done"], none, []⟩]

/-- A two-item hierarchy that a live run labels completely. -/
def wCountW : World :=
  [ ⟨"R", "C1 Root", "Epic", [], none, []⟩,
    ⟨"S", "C1.5 Sub", "Story", [], some "R", []⟩ ]

/-- The prefix map of a five-ancestor chain. -/
def pmW : List (String × String) :=
  [("E4", "C1.5.2.1.9"), ("E3", "C1.5.2.1"), ("E2", "C1.5.2"),
   ("E1", "C1.5"), ("E0", "C1")]

/-- The parent map of the five-ancestor chain. -/
def parmW : List (String × String) :=
  [("E4", "E3"), ("E3", "E2"), ("E2", "E1"), ("E1", "E0")]

/-! ## The claims -/

/-- Claim C1 (code bug): the source never increments `stats['skipped']`.  On a
run whose only item already carries its computed ancestry labels, the claim
says `skipped` is incremented (so the returned counter would be 1) and no
repository write occurs; the code indeed performs no write but returns the
stats with `skipped = 0`, in both live and dry-run mode, contradicting its own
summary output and documented counters. -/
theorem skipCounter_never_incremented :
    labelRoadmapHierarchy wSkipRun "R" none false none =
      .ok (⟨0, 0, 0, 0⟩, []) ∧
    labelRoadmapHierarchy wSkipRun "R" none true none =
      .ok (⟨0, 0, 0, 0⟩, []) :=
  ⟨by decide, by decide⟩

/-- Claim C2, counterexample: with an issue-type filter the yielded sequence
is not the unfiltered traversal filtered down to matching nodes — the filter
also narrows the child query, so it changes which nodes are traversed
(the Epic grandchild `P-3` disappears entirely under the filter). -/
theorem typeFilter_changes_traversal_cx :
    ¬ (getIssueHierarchy wTypeFilter none (some "Epic") 10 "P-1" =
       (getIssueHierarchy wTypeFilter none none 10 "P-1").filter
         (fun n => n.issue.issuetype == "Epic")) := by decide

/-- Claim C2, amended: relative to the traversal the run actually performs
(whose child queries are narrowed by the filter), the issue-type filter is
pure reporting: the yielded sequence equals the full traversal sequence
restricted to nodes whose issue-type matches, so a traversed node whose type
does not match is not yielded while its descendants are still computed and
recursed into. -/
theorem typeFilter_reporting_only :
    ∀ (w : World) (proj : Option String) (t : String) (maxD : Nat) (root : String),
      getIssueHierarchy w proj (some t) maxD root =
        (getTraversalAll w proj (some t) maxD root).filter
          (fun n => n.issue.issuetype == t) := by
  intro w proj t maxD root
  unfold getIssueHierarchy getTraversalAll
  rw [traverseGo_eq_filterAll]
  rfl

/-- Claim C3: `_build_ancestry_labels` follows the depth-tiered policy.  At
depth ≥ 4 with a truthy parent key whose labels are already computed, the
parent's label list is returned unchanged; at depth ≤ 3 the lowercased
prefixes along the parent chain are collected in root-to-self order and, when
more than 3 of them exist, compressed to exactly the first, second-to-last
and last entries. -/
theorem buildAncestryLabels_policy :
    (∀ (pm parm : List (String × String)) (lm : List (String × List String))
      (fuel : Nat) (key : String) (depth : Nat) (p : String) (ls : List String),
      4 ≤ depth → lookupS parm key = some p → p ≠ "" → lookupL lm p = some ls →
      buildAncestryLabels pm parm lm fuel key depth = ls) ∧
    (∀ (pm parm : List (String × String)) (lm : List (String × List String))
      (fuel : Nat) (key : String) (depth : Nat) (c : List String),
      depth ≤ 3 → ParentChain parm key c → c.length ≤ fuel →
      buildAncestryLabels pm parm lm fuel key depth =
        (if 3 < ((c.filterMap (fun k => (lookupS pm k).map lowerStr)).reverse).length
         then [((c.filterMap (fun k => (lookupS pm k).map lowerStr)).reverse).getD 0 "",
               ((c.filterMap (fun k => (lookupS pm k).map lowerStr)).reverse).getD
                 (((c.filterMap (fun k => (lookupS pm k).map lowerStr)).reverse).length - 2) "",
               ((c.filterMap (fun k => (lookupS pm k).map lowerStr)).reverse).getD
                 (((c.filterMap (fun k => (lookupS pm k).map lowerStr)).reverse).length - 1) ""]
         else (c.filterMap (fun k => (lookupS pm k).map lowerStr)).reverse)) :=
  ⟨fun pm parm lm fuel key depth p ls hd hp hne hl =>
    buildAncestryLabels_inherited pm parm lm fuel key depth p ls hd hp hne hl,
   fun pm parm lm fuel key depth c hd hc hfuel =>
    buildAncestryLabels_chain pm parm lm fuel key depth c hd hc hfuel⟩

/-- Claim C3, witness: a five-ancestor chain at depth 3 compresses to exactly
`[root, immediate_parent, self]`, and a depth-5 item inherits its parent's
computed labels unchanged. -/
theorem buildAncestryLabels_policy_witness :
    buildAncestryLabels pmW parmW [] 6 "E4" 3 =
      ["c1", "c1.5.2.1", "c1.5.2.1.9"] ∧
    buildAncestryLabels [] [("F", "P")] [("P", ["c1", "c1.2"])] 3 "F" 5 =
      ["c1", "c1.2"] := by
  constructor
  · have hc : ParentChain parmW "E4" ["E4", "E3", "E2", "E1", "E0"] :=
      .step _ _ _ (by decide) (by rfl)
        (.step _ _ _ (by decide) (by rfl)
          (.step _ _ _ (by decide) (by rfl)
            (.step _ _ _ (by decide) (by rfl)
              (.last _ (by decide) (by rfl)))))
    rw [buildAncestryLabels_policy.2 pmW parmW [] 6 "E4" 3
      ["E4", "E3", "E2", "E1", "E0"] (by decide) hc (by decide)]
    decide
  · exact buildAncestryLabels_policy.1 [] [("F", "P")] [("P", ["c1", "c1.2"])]
      3 "F" 5 "P" ["c1", "c1.2"] (by decide) (by rfl) (by decide) (by rfl)

/-- Claim C4, counterexample: a twelve-issue acyclic parent chain (certified
acyclic by a rank function increasing along every traversal edge) makes
`K12` reachable and existing, yet a traversal with the default
`max_depth = 10` never yields it — so "in any acyclic hierarchy each
reachable item is yielded exactly once" fails as stated. -/
theorem deep_chain_reachable_not_yielded :
    (∀ a b : String, reachEdge wChain12 a b → chainRank a < chainRank b) ∧
    Reaches wChain12 "K1" "K12" ∧
    (getIssue wChain12 "K12").isSome = true ∧
    ((getIssueHierarchy wChain12 none none 10 "K1").map
      (fun n => n.issue.key)).count "K12" = 0 := by
  refine ⟨?_, ?_, by decide, by decide⟩
  · have core : ∀ i ∈ wChain12, ∀ b ∈ succsKeys wChain12 i.key,
        chainRank i.key < chainRank b := by decide
    intro a b h
    obtain ⟨i, hiw, hk⟩ := succsKeys_source h
    rw [← hk] at h ⊢
    exact core i hiw b h
  · have s : ∀ a b : String, reachEdge wChain12 a b → Reaches wChain12 a b :=
      fun a b h => Relation.ReflTransGen.single h
    exact (s "K1" "K2" (by decide)).trans ((s "K2" "K3" (by decide)).trans
      ((s "K3" "K4" (by decide)).trans ((s "K4" "K5" (by decide)).trans
      ((s "K5" "K6" (by decide)).trans ((s "K6" "K7" (by decide)).trans
      ((s "K7" "K8" (by decide)).trans ((s "K8" "K9" (by decide)).trans
      ((s "K9" "K10" (by decide)).trans ((s "K10" "K11" (by decide)).trans
      (s "K11" "K12" (by decide)))))))))))

/-- Claim C4, amended: `get_issue_hierarchy` is total and yields each issue
key at most once on every link graph; in the two-item cycle both issues are
yielded exactly once; and on any graph — cyclic or not — traversed with no
project or type filter whose key space fits within `max_depth + 1`, every
reachable existing issue is yielded exactly once, regardless of how many
link/parent paths reach it.  (Deeper than `max_depth`, reachable items can be
missed, as the counterexample shows.) -/
theorem hierarchy_termination_uniqueness :
    (∀ (w : World) (proj ty : Option String) (maxD : Nat) (root : String),
      ((getIssueHierarchy w proj ty maxD root).map (fun n => n.issue.key)).Nodup) ∧
    ((getIssueHierarchy wCycle none none 10 "A").map (fun n => n.issue.key) =
      ["A", "B"]) ∧
    (∀ (w : World) (maxD : Nat) (root : String),
      (keySpace w root).card ≤ maxD + 1 →
      ∀ k, Reaches w root k → (getIssue w k).isSome →
        ((getIssueHierarchy w none none maxD root).map
          (fun n => n.issue.key)).count k = 1) :=
  ⟨fun w proj ty maxD root =>
    (traverseGo_keys w proj ty maxD (maxD + 1) root 0 "root" none []).1,
   by decide,
   fun w maxD root hc k hr hf => hierarchy_complete_count w maxD root hc k hr hf⟩

/-- Claim C4, witness: in the diamond world two distinct paths reach `C`;
with `max_depth = 5` (enough for its four-key space) `C` is yielded exactly
once. -/
theorem hierarchy_termination_uniqueness_witness :
    (keySpace wDiamond "R").card ≤ 5 + 1 ∧
    ((getIssueHierarchy wDiamond none none 5 "R").map
      (fun n => n.issue.key)).count "C" = 1 := by
  refine ⟨by decide, ?_⟩
  refine hierarchy_termination_uniqueness.2.2 wDiamond 5 "R" (by decide) "C" ?_ (by decide)
  exact (Relation.ReflTransGen.single (by decide : reachEdge wDiamond "R" "A")).trans
    (Relation.ReflTransGen.single (by decide : reachEdge wDiamond "A" "C"))

/-- Claim C5: a dry run never performs a label-write repository operation,
for every world, root, project filter and limit. -/
theorem dryRun_never_writes :
    ∀ (w : World) (root : String) (proj : Option String) (lim : Option Nat),
      writesOf (labelRoadmapHierarchy w root proj true lim) = [] :=
  fun w root proj lim => labelRoadmap_dry_writes w root proj lim

/-- Claim C6: a clone link is never traversed — every linked descendant
candidate comes from a non-clone link with that target, and every node the
hierarchy yields with relationship "linked" is justified by a non-clone link
of some issue of the world. -/
theorem clone_links_never_traversed :
    (∀ (proj : Option String) (vis : List String) (links : List IssueLink)
      (k : String), k ∈ linkedCandidates proj vis links →
      ∃ l ∈ links, isCloneLink l = false ∧ l.target = some k) ∧
    (∀ (w : World) (proj ty : Option String) (maxD : Nat) (root : String)
      (n : HierNode), n ∈ getIssueHierarchy w proj ty maxD root →
      n.relationship = "linked" → LinkJustified w n.issue.key) := by
  constructor
  · intro proj vis links k h
    obtain ⟨l, hl, hc, ht, _, _⟩ := mem_linkedCandidates h
    exact ⟨l, hl, hc, ht⟩
  · intro w proj ty maxD root n hn hrel
    exact traverseGo_linked w proj ty maxD (maxD + 1) root 0 "root" none []
      (fun h => absurd h (by decide)) n hn hrel

/-- Claim C6, witness: in the clone world the only linked candidate of `X` is
`Z` (via the non-clone "Blocks" link), and the yielded linked node `Z` is
justified by a non-clone link. -/
theorem clone_links_never_traversed_witness :
    (∃ l ∈ [(⟨"Cloners", "is cloned by", "clones", some "Y"⟩ : IssueLink),
            ⟨"Blocks", "is blocked by", "blocks", some "Z"⟩],
      isCloneLink l = false ∧ l.target = some "Z") ∧
    LinkJustified wCloneW "Z" := by
  constructor
  · exact clone_links_never_traversed.1 none ["X"]
      [⟨"Cloners", "is cloned by", "clones", some "Y"⟩,
       ⟨"Blocks", "is blocked by", "blocks", some "Z"⟩] "Z" (by decide)
  · exact clone_links_never_traversed.2 wCloneW none none 10 "X"
      ⟨⟨"Z", "blocked", "Story", [], none, []⟩, 1, "linked", some "X"⟩
      (by decide) rfl

/-- Claim C7: every yielded node satisfies the depth invariant — a root node
has depth 0 (and no parent key), and every non-root yielded node records the
key of the node it was reached from, whose traversal entry has exactly one
less depth. -/
theorem hierarchy_depth_invariant :
    ∀ (w : World) (proj ty : Option String) (maxD : Nat) (root : String),
      ∀ n ∈ getIssueHierarchy w proj ty maxD root,
        (n.relationship = "root" → n.depth = 0 ∧ n.parentKey = none) ∧
        (n.relationship ≠ "root" → ∃ pk, n.parentKey = some pk ∧
          ∃ m ∈ getTraversalAll w proj ty maxD root,
            m.issue.key = pk ∧ n.depth = m.depth + 1) := by
  intro w proj ty maxD root n hn
  have hfil : n ∈ (traverseAllGo w proj ty maxD (maxD + 1) root 0 "root" none []).1 := by
    have := traverseGo_eq_filterAll w proj ty maxD (maxD + 1) root 0 "root" none []
    unfold getIssueHierarchy at hn
    rw [this] at hn
    exact List.mem_of_mem_filter hn
  have hdep := traverseAllGo_depth w proj ty maxD (maxD + 1) root 0 "root" none [] n hfil
  constructor
  · intro hroot
    rcases hdep with ⟨h1, _, h3⟩ | ⟨m, _, _, _, hrel⟩
    · exact ⟨h1, h3⟩
    · rcases hrel with h | h
      · rw [hroot] at h; exact absurd h (by decide)
      · rw [hroot] at h; exact absurd h (by decide)
  · intro hroot
    rcases hdep with ⟨_, h2, _⟩ | ⟨m, hm, hpk, hd, _⟩
    · exact absurd h2 hroot
    · exact ⟨m.issue.key, hpk, m, hm, rfl, hd⟩

/-- Claim C7, witness: the linked node `S` of the two-issue world records
parent key `R`, whose traversal entry sits one depth above. -/
theorem hierarchy_depth_invariant_witness :
    ∃ pk, (HierNode.mk ⟨"S", "linked child", "Epic", [], none, []⟩ 1 "linked"
      (some "R")).parentKey = some pk ∧
    ∃ m ∈ getTraversalAll wDepthW none none 10 "R", m.issue.key = pk ∧
      (HierNode.mk ⟨"S", "linked child", "Epic", [], none, []⟩ 1 "linked"
        (some "R")).depth = m.depth + 1 :=
  (hierarchy_depth_invariant wDepthW none none 10 "R"
    ⟨⟨"S", "linked child", "Epic", [], none, []⟩, 1, "linked", some "R"⟩
    (by decide)).2 (by decide)

/-- Claim C8: when the root issue exists but its summary has no extractable
roadmap prefix, `label_roadmap_hierarchy` raises the error naming the root
key and its raw summary before any traversal, and performs no write at all. -/
theorem missing_root_tag_fatal :
    ∀ (w : World) (root : String) (proj : Option String) (d : Bool)
      (lim : Option Nat) (i : Issue),
      getIssue w root = some i → extractRoadmapTag i.summary = none →
      labelRoadmapHierarchy w root proj d lim =
        .error ("Root issue " ++ root ++ " has no valid prefix in summary: '" ++
          i.summary ++ "'") ∧
      writesOf (labelRoadmapHierarchy w root proj d lim) = [] := by
  intro w root proj d lim i hroot htag
  have h := labelRoadmap_badRoot w root proj d lim i hroot htag
  refine ⟨h, ?_⟩
  rw [h]
  rfl

/-- Claim C8, witness: the prefix-less root world raises exactly the source's
message and no write happens. -/
theorem missing_root_tag_fatal_witness :
    labelRoadmapHierarchy wBadRoot "R" none false none =
      .error ("Root issue " ++ "R" ++ " has no valid prefix in summary: '" ++
        "no tag here" ++ "'") ∧
    writesOf (labelRoadmapHierarchy wBadRoot "R" none false none) = [] :=
  missing_root_tag_fatal wBadRoot "R" none false none
    ⟨"R", "no tag here", "Epic", [], none, []⟩ (by decide) (by decide)

/-- Claim C9: `add_label` is idempotent — when the label is already present
no update write happens and the world is unchanged, and a second identical
call after any successful call is a no-op on the resulting world. -/
theorem addLabel_idempotent :
    (∀ (w : World) (k l : String) (i : Issue), getIssue w k = some i →
      l ∈ i.labels → addLabel w k l = .ok (w, [])) ∧
    (∀ (w : World) (k l : String) (w1 : World) (ws1 : List WriteOp),
      addLabel w k l = .ok (w1, ws1) → addLabel w1 k l = .ok (w1, [])) :=
  ⟨fun w k l i hi hl => addLabel_present w k l i hi hl,
   fun w k l w1 ws1 h => addLabel_twice w k l w1 ws1 h⟩

/-- Claim C9, witness: adding an already-present label writes nothing, and
re-adding a freshly added label is a no-op on the updated world. -/
theorem addLabel_idempotent_witness :
    addLabel wAddW "I" "done" = .ok (wAddW, []) ∧
    addLabel [⟨"I", "x", "Story", ["done", "new"], none, []⟩] "I" "new" =
      .ok ([⟨"I", "x", "Story", ["done", "new"], none, []⟩], []) := by
  constructor
  · exact addLabel_idempotent.1 wAddW "I" "done"
      ⟨"I", "x", "Story", ["done"], none, []⟩ (by decide) (by decide)
  · exact addLabel_idempotent.2 wAddW "I" "new"
      [⟨"I", "x", "Story", ["done", "new"], none, []⟩]
      [("I", ["done", "new"])] (by decide)

/-- Claim C10: in every stats dict an orchestrator run returns, the
`processed` counter equals the `labeled` counter — both are incremented
together, only for items with at least one new label. -/
theorem processed_equals_labeled :
    ∀ (w : World) (root : String) (proj : Option String) (d : Bool)
      (lim : Option Nat) (stats : RunStats) (ws : List WriteOp),
      labelRoadmapHierarchy w root proj d lim = .ok (stats, ws) →
      stats.processed = stats.labeled :=
  fun w root proj d lim stats ws h => labelRoadmap_counts w root proj d lim stats ws h

/-- Claim C10, witness: the two-item live run returns `processed = labeled = 2`. -/
theorem processed_equals_labeled_witness :
    labelRoadmapHierarchy wCountW "R" none false none =
      .ok (⟨2, 2, 0, 0⟩, [("R", ["c1"]), ("S", ["c1"]), ("S", ["c1", "c1.5"])]) ∧
    (RunStats.mk 2 2 0 0).processed = (RunStats.mk 2 2 0 0).labeled :=
  ⟨by decide,
   processed_equals_labeled wCountW "R" none false none ⟨2, 2, 0, 0⟩
     [("R", ["c1"]), ("S", ["c1"]), ("S", ["c1", "c1.5"])] (by decide)⟩
